import Mathlib

/-
  Verification development for the model-based projection (MBP) engine for
  linear arithmetic (src/qe/mbp/mbp_arith.cpp) and the bit-vector theory
  parameter updater (src/params/theory_bv_params.cpp).

  The expression DAG, the model evaluator and the MBO kernel are external
  collaborators of the code under verification; they are represented here by
  an explicit syntax tree, an evaluation function parameter, and oracle
  function parameters respectively.  Machine integers do not occur: all
  arithmetic in the source is exact rational arithmetic.
-/

set_option maxHeartbeats 4000000
set_option linter.unusedVariables false
set_option linter.unreachableTactic false

namespace Mbp

/-- Decidable equality on Except results, for evaluating concrete runs. -/
instance {ε α : Type} [DecidableEq ε] [DecidableEq α] : DecidableEq (Except ε α) :=
  fun x y =>
    match x, y with
    | .error a, .error b =>
      match decEq a b with
      | isTrue h => isTrue (by rw [h])
      | isFalse h => isFalse (fun hh => by cases hh; exact h rfl)
    | .ok a, .ok b =>
      match decEq a b with
      | isTrue h => isTrue (by rw [h])
      | isFalse h => isFalse (fun hh => by cases hh; exact h rfl)
    | .error _, .ok _ => isFalse (fun hh => by cases hh)
    | .ok _, .error _ => isFalse (fun hh => by cases hh)

/-- Sorts of host expressions, as distinguished by the source via
`a.is_int`, `a.is_real`, `a.is_int_real` and `m.is_bool`. -/
inductive ESort where
  | int
  | real
  | bool
  | other
deriving DecidableEq

mutual

/-- Host expressions: the fragment of the z3 expression DAG that
mbp_arith.cpp inspects through predicates (is_add, is_mul, is_sub,
is_uminus, is_ite, is_mod, is_idiv, is_le, is_lt, is_ge, is_gt, is_eq,
is_distinct, is_not, is_and, is_or, is_numeral) and builds through the
corresponding constructors.  `var` stands for any node that the code treats
atomically (uninterpreted constants and abstracted subterms); node identity
in the hash-consed DAG is structural equality here.  `num q i` is a numeral
with rational value `q` and integrality flag `i`. -/
inductive Expr : Type where
  | var : Nat → ESort → Expr
  | num : ℚ → Bool → Expr
  | addE : ExprList → Expr
  | subE : Expr → Expr → Expr
  | uminus : Expr → Expr
  | mulE : Expr → Expr → Expr
  | iteE : Expr → Expr → Expr → Expr
  | modE : Expr → Expr → Expr
  | idivE : Expr → Expr → Expr
  | divE : Expr → Expr → Expr
  | leE : Expr → Expr → Expr
  | ltE : Expr → Expr → Expr
  | geE : Expr → Expr → Expr
  | gtE : Expr → Expr → Expr
  | eqE : Expr → Expr → Expr
  | distinctE : ExprList → Expr
  | notE : Expr → Expr
  | andE : ExprList → Expr
  | orE : ExprList → Expr
  | trueE : Expr
  | falseE : Expr

/-- Argument lists of n-ary nodes (add, and, or, distinct). -/
inductive ExprList : Type where
  | nil : ExprList
  | cons : Expr → ExprList → ExprList

end

deriving instance DecidableEq for Expr

/-- Conversion of an argument list to a Lean list. -/
def ExprList.toList : ExprList → List Expr
  | .nil => []
  | .cons e es => e :: es.toList

/-- Conversion of a Lean list to an argument list. -/
def ExprList.ofList : List Expr → ExprList
  | [] => .nil
  | e :: es => .cons e (ExprList.ofList es)

mutual

/-- Size of an expression (every node counts 1); used for termination
measures. -/
def sizeE : Expr → Nat
  | .var _ _ => 1
  | .num _ _ => 1
  | .addE l => 1 + sizeL l
  | .subE a b => 1 + sizeE a + sizeE b
  | .uminus a => 1 + sizeE a
  | .mulE a b => 1 + sizeE a + sizeE b
  | .iteE g a b => 1 + sizeE g + sizeE a + sizeE b
  | .modE a b => 1 + sizeE a + sizeE b
  | .idivE a b => 1 + sizeE a + sizeE b
  | .divE a b => 1 + sizeE a + sizeE b
  | .leE a b => 1 + sizeE a + sizeE b
  | .ltE a b => 1 + sizeE a + sizeE b
  | .geE a b => 1 + sizeE a + sizeE b
  | .gtE a b => 1 + sizeE a + sizeE b
  | .eqE a b => 1 + sizeE a + sizeE b
  | .distinctE l => 1 + sizeL l
  | .notE a => 1 + sizeE a
  | .andE l => 1 + sizeL l
  | .orE l => 1 + sizeL l
  | .trueE => 1
  | .falseE => 1

/-- Total size of an argument list. -/
def sizeL : ExprList → Nat
  | .nil => 0
  | .cons e es => sizeE e + sizeL es

end

mutual

/-- Sort of an expression.  Arithmetic nodes take the sort of their first
argument (all arguments of a z3 arithmetic application share one sort);
mod and integer division are integer-sorted, real division real-sorted,
and the logical nodes are Boolean. -/
def sortOf : Expr → ESort
  | .var _ s => s
  | .num _ i => if i then .int else .real
  | .addE l => sortHd l
  | .subE a _ => sortOf a
  | .uminus a => sortOf a
  | .mulE a _ => sortOf a
  | .iteE _ a _ => sortOf a
  | .modE _ _ => .int
  | .idivE _ _ => .int
  | .divE _ _ => .real
  | .leE _ _ => .bool
  | .ltE _ _ => .bool
  | .geE _ _ => .bool
  | .gtE _ _ => .bool
  | .eqE _ _ => .bool
  | .distinctE _ => .bool
  | .notE _ => .bool
  | .andE _ => .bool
  | .orE _ => .bool
  | .trueE => .bool
  | .falseE => .bool

/-- Sort of the head of an argument list (int for the empty list). -/
def sortHd : ExprList → ESort
  | .nil => .int
  | .cons a _ => sortOf a

end

/-- Embeds `a.is_int_real(e)` (mbp_arith.cpp:294): the sort of `e` is Int or
Real. -/
def is_arith (e : Expr) : Bool :=
  match sortOf e with
  | .int => true
  | .real => true
  | _ => false

/-- Embeds `a.is_int(e)`: the sort of `e` is Int. -/
def isInt (e : Expr) : Bool := sortOf e = ESort.int

/-- Embeds `mk_not(m, e)` from ast_util: strips a top-level negation if
present, otherwise wraps in one. -/
def mk_not : Expr → Expr
  | .notE e => e
  | e => .notE e

/-- Embeds `a.is_extended_numeral` (used through the helper `is_numeral`,
mbp_arith.cpp:283): a numeral possibly wrapped in unary minuses. -/
def is_extended_numeral : Expr → Option ℚ
  | .num q _ => some q
  | .uminus e => (is_extended_numeral e).map (fun q => -q)
  | _ => none

/-- Embeds `a.is_numeral(val, r)` applied to an evaluation result: succeeds
exactly on numeral nodes. -/
def evalNumQ : Expr → Option ℚ
  | .num q _ => some q
  | _ => none

/-- Integer division on rational values of integer-sorted terms, with the
floor semantics z3 uses for `div` with positive divisor. -/
def qdiv (x m : ℚ) : ℚ := ((⌊x / m⌋ : ℤ) : ℚ)

/-- Remainder matching z3 `mod` semantics for positive modulus:
`qmod x m = x - m * ⌊x / m⌋`, which lies in `[0, m)` for `m > 0`. -/
def qmod (x m : ℚ) : ℚ := x - m * qdiv x m

/-- Association list lookup (obj_map / u_map / map find; key identity is
structural equality of the embedded node). -/
def alook {α β : Type} [DecidableEq α] : List (α × β) → α → Option β
  | [], _ => none
  | p :: rest, a => if p.1 = a then some p.2 else alook rest a

/-- Association list insert-or-overwrite (obj_map / u_map insert). -/
def aupd {α β : Type} [DecidableEq α] : List (α × β) → α → β → List (α × β)
  | [], a, b => [(a, b)]
  | p :: rest, a, b => if p.1 = a then (a, b) :: rest else p :: aupd rest a b

/-- Embeds `insert_mul` (mbp_arith.cpp:45): add `v` to the coefficient of
`x` in the accumulator, inserting it if absent. -/
def insert_mul (x : Expr) (v : ℚ) (ts : List (Expr × ℚ)) : List (Expr × ℚ) :=
  match alook ts x with
  | some w => aupd ts x (w + v)
  | none => aupd ts x v

/-- Comparator kinds of MBO constraints (opt::ineq_type together with the
row kinds t_mod and t_div of opt::model_based_opt::row). -/
inductive IneqType where
  | t_le
  | t_lt
  | t_eq
  | t_divides
  | t_mod
  | t_div
deriving DecidableEq

/-- One (variable id, coefficient) pair (opt::model_based_opt::var). -/
structure MVar where
  id : Nat
  coeff : ℚ
deriving DecidableEq

/-- One submitted MBO constraint: `Σ coeffs + c ⟨ty⟩ 0`, with modulus
`modM` for divides constraints (0 when unused). -/
structure Con where
  coeffs : List MVar
  c : ℚ
  ty : IneqType
  modM : ℚ
deriving DecidableEq

/-- State of the MBO kernel as visible to the code under verification:
variable values and integrality flags in allocation order, the submitted
constraints in submission order, and the registered mod/div pseudo-rows
keyed by the variable they define.  The kernel itself (projection,
get_live_rows) is an external collaborator and is passed as an oracle. -/
structure Mbo where
  values : List ℚ
  ints : List Bool
  cons : List Con
  defRows : List (Nat × Con)
deriving DecidableEq

/-- Initial empty MBO instance. -/
def mbo0 : Mbo := ⟨[], [], [], []⟩

/-- Value of MBO variable `id` (its initial model value). -/
def mboVal (mbo : Mbo) (id : Nat) : ℚ := mbo.values.getD id 0

/-- Value of a coefficient vector under the MBO variable values. -/
def coeffsVal (mbo : Mbo) (cs : List MVar) : ℚ :=
  (cs.map (fun v => v.coeff * mboVal mbo v.id)).sum

/-- Embeds `mbo.add_var(value, is_int)`: allocates the next dense index. -/
def Mbo.add_var (mbo : Mbo) (r : ℚ) (isI : Bool) : Nat × Mbo :=
  (mbo.values.length,
   { mbo with values := mbo.values ++ [r], ints := mbo.ints ++ [isI] })

/-- Embeds `mbo.add_constraint(coeffs, c, ty)`. -/
def Mbo.add_constraint (mbo : Mbo) (coeffs : List MVar) (c : ℚ) (ty : IneqType) : Mbo :=
  { mbo with cons := mbo.cons ++ [⟨coeffs, c, ty, 0⟩] }

/-- Embeds `mbo.add_divides(coeffs, c, m)`: asserts `m` divides
`Σ coeffs + c`. -/
def Mbo.add_divides (mbo : Mbo) (coeffs : List MVar) (c m : ℚ) : Mbo :=
  { mbo with cons := mbo.cons ++ [⟨coeffs, c, .t_divides, m⟩] }

/-- Modelled from the spec: `mbo.add_mod(coeffs, c, m)` belongs to the MBO
kernel, which is not under src/.  Per the stated contract (spec sections 3
and 6.2) it allocates a fresh integer variable denoting
`(Σ coeffs + c) mod m`, initialized consistently with the current variable
values, registers the defining pseudo-row, and returns the fresh id. -/
def Mbo.add_mod (mbo : Mbo) (coeffs : List MVar) (c m : ℚ) : Nat × Mbo :=
  let v := qmod (coeffsVal mbo coeffs + c) m
  let (id, mbo1) := mbo.add_var v true
  (id, { mbo1 with defRows := mbo1.defRows ++ [(id, ⟨coeffs, c, .t_mod, m⟩)] })

/-- Modelled from the spec: `mbo.add_div(coeffs, c, m)` belongs to the MBO
kernel, which is not under src/.  Analogous to add_mod with
`(Σ coeffs + c) div m`. -/
def Mbo.add_div (mbo : Mbo) (coeffs : List MVar) (c m : ℚ) : Nat × Mbo :=
  let v := qdiv (coeffsVal mbo coeffs + c) m
  let (id, mbo1) := mbo.add_var v true
  (id, { mbo1 with defRows := mbo1.defRows ++ [(id, ⟨coeffs, c, .t_div, m⟩)] })

/-- The per-call mutable state threaded through linearization: the MBO
instance and the tids map from expressions to MBO variable ids. -/
structure LinState where
  mbo : Mbo
  tids : List (Expr × Nat)
deriving DecidableEq

/-- Accumulator of the term linearizer, mirroring the in-out parameters of
`imp::linearize` on terms (mbp_arith.cpp:197): the running scalar `c`, the
coefficient accumulator `ts`, the side formulas appended to `fmls` so far
(in order), and the MBO/tids state. -/
structure LinRes where
  c : ℚ
  ts : List (Expr × ℚ)
  out : List Expr
  st : LinState
deriving DecidableEq

/-- Embeds `extract_coefficients` (mbp_arith.cpp:669): for each accumulator
entry look up the MBO id, allocating a fresh variable primed with the model
value when absent (fatal error when the evaluation yields no numeral), and
emit the pair unless the accumulated coefficient is zero. -/
def extract_coefficients (eval : Expr → Expr) :
    List (Expr × ℚ) → LinState → Except String (List MVar × LinState)
  | [], st => .ok ([], st)
  | (v, q) :: rest, st =>
    let idSt : Except String (Nat × LinState) :=
      match alook st.tids v with
      | some id => .ok (id, st)
      | none =>
        match evalNumQ (eval v) with
        | none => .error "mbp evaluation was only partial"
        | some r =>
          let (id, mbo1) := st.mbo.add_var r (isInt v)
          .ok (id, ⟨mbo1, aupd st.tids v id⟩)
    match idSt with
    | .error e => .error e
    | .ok (id, st1) =>
      match extract_coefficients eval rest st1 with
      | .error e => .error e
      | .ok (cs, st2) => .ok ((if q = 0 then cs else ⟨id, q⟩ :: cs), st2)

mutual

/-- Embeds `imp::linearize` on terms (mbp_arith.cpp:197-281): recursive
descent accumulating `Σ mul·t` into the accumulator.  The dispatch follows
the source if-else chain; the second mod-by-positive-numeral arm of the
source (mbp_arith.cpp:261-276, the add_divides arm) is unreachable because
its guard is identical to the first (proved below against the literal chain
rendition `linearize_term_chain`), so it does not appear here.  The debug
assertions and the cancellation flag test are not modelled (the liveness
flag is taken as always set). -/
def linearize_term (eval : Expr → Expr) (mul : ℚ) (t : Expr) (acc : LinRes) :
    Except String LinRes :=
  if (alook acc.st.tids t).isSome then
    .ok { acc with ts := insert_mul t mul acc.ts }
  else
    match t with
    | .mulE t1 t2 =>
      match is_extended_numeral t1, is_extended_numeral t2 with
      | some k, _ => linearize_term eval (mul * k) t2 acc
      | none, some k => linearize_term eval (mul * k) t1 acc
      | none, none => .ok { acc with ts := insert_mul t mul acc.ts }
    | .uminus t1 => linearize_term eval (-mul) t1 acc
    | .num q _ => .ok { acc with c := acc.c + mul * q }
    | .addE args => linearize_term_list eval mul args acc
    | .subE t1 t2 =>
      match linearize_term eval mul t1 acc with
      | .error e => .error e
      | .ok acc1 => linearize_term eval (-mul) t2 acc1
    | .iteE t1 t2 t3 =>
      let val := eval t1
      if val = .trueE then
        match linearize_term eval mul t2 acc with
        | .error e => .error e
        | .ok acc1 => .ok { acc1 with out := acc1.out ++ [t1] }
      else if val = .falseE then
        linearize_term eval mul t3 { acc with out := acc.out ++ [mk_not t1] }
      else
        .error "mbp evaluation did not produce a truth value"
    | .modE t1 t2 =>
      match is_extended_numeral t2 with
      | some k =>
        if 0 < k then
          match linearize_term eval 1 t1 ⟨0, [], acc.out, acc.st⟩ with
          | .error e => .error e
          | .ok r0 =>
            match extract_coefficients eval r0.ts r0.st with
            | .error e => .error e
            | .ok (coeffs, st1) =>
              let ts1 := insert_mul t mul acc.ts
              let (id, mbo1) := st1.mbo.add_mod coeffs r0.c k
              .ok ⟨acc.c, ts1, r0.out, ⟨mbo1, aupd st1.tids t id⟩⟩
        else .ok { acc with ts := insert_mul t mul acc.ts }
      | none => .ok { acc with ts := insert_mul t mul acc.ts }
    | .idivE t1 t2 =>
      match is_extended_numeral t2 with
      | some k =>
        if 0 < k then
          match linearize_term eval 1 t1 ⟨0, [], acc.out, acc.st⟩ with
          | .error e => .error e
          | .ok r0 =>
            match extract_coefficients eval r0.ts r0.st with
            | .error e => .error e
            | .ok (coeffs, st1) =>
              let ts1 := insert_mul t mul acc.ts
              let (id, mbo1) := st1.mbo.add_div coeffs r0.c k
              .ok ⟨acc.c, ts1, r0.out, ⟨mbo1, aupd st1.tids t id⟩⟩
        else .ok { acc with ts := insert_mul t mul acc.ts }
      | none => .ok { acc with ts := insert_mul t mul acc.ts }
    | _ => .ok { acc with ts := insert_mul t mul acc.ts }

/-- Linearizes each member of an argument list with the same multiplier
(the is_add arm, mbp_arith.cpp:222-225). -/
def linearize_term_list (eval : Expr → Expr) (mul : ℚ) (l : ExprList)
    (acc : LinRes) : Except String LinRes :=
  match l with
  | .nil => .ok acc
  | .cons e es =>
    match linearize_term eval mul e acc with
    | .error err => .error err
    | .ok acc1 => linearize_term_list eval mul es acc1

end

/-- Shared tail of the comparison arms of the literal linearizer
(mbp_arith.cpp:81-110 together with 188-191): linearize `e1` with `mul` and
`e2` with `-mul`, extract the coefficient vector and submit one constraint
of kind `ty`.  Also the inlined body of the recursive call the source makes
on a freshly built strict inequality in the distinct case
(mbp_arith.cpp:125-128): on `a.mk_lt(x, y)` that call takes exactly this
path with `mul = 1` and `ty = t_lt`. -/
def lin_cmp (eval : Expr → Expr) (mul : ℚ) (e1 e2 : Expr) (ty : IneqType)
    (st : LinState) : Except String (Bool × List Expr × LinState) :=
  match linearize_term eval mul e1 ⟨0, [], [], st⟩ with
  | .error e => .error e
  | .ok r1 =>
    match linearize_term eval (-mul) e2 r1 with
    | .error e => .error e
    | .ok r2 =>
      match extract_coefficients eval r2.ts r2.st with
      | .error e => .error e
      | .ok (coeffs, st1) =>
        .ok (true, r2.out, ⟨st1.mbo.add_constraint coeffs r2.c ty, st1.tids⟩)

/-- Evaluates the arguments of a positive distinct literal in order
(mbp_arith.cpp:115-121), failing at the first argument whose evaluation is
not a numeral. -/
def evalNums (eval : Expr → Expr) : List Expr → Option (List (Expr × ℚ))
  | [] => some []
  | a :: rest =>
    match evalNumQ (eval a) with
    | none => none
    | some r => (evalNums eval rest).map (fun l => (a, r) :: l)

/-- Insertion into a list sorted by ascending model value. -/
def insertByVal (p : Expr × ℚ) : List (Expr × ℚ) → List (Expr × ℚ)
  | [] => [p]
  | q :: rest => if p.2 < q.2 then p :: q :: rest else q :: insertByVal p rest

/-- Embeds the `std::sort(nums, compare_second())` call
(mbp_arith.cpp:122): sorts by ascending model value.  On the intended
inputs the values are pairwise distinct (the source asserts this), so the
result does not depend on the sorting algorithm. -/
def sortByVal : List (Expr × ℚ) → List (Expr × ℚ)
  | [] => []
  | p :: rest => insertByVal p (sortByVal rest)

/-- The loop over adjacent sorted pairs of a positive distinct literal
(mbp_arith.cpp:123-129); each pair is handled by the inlined recursive
linearize call on `a.mk_lt(x, y)`, i.e. `lin_cmp` with multiplier 1 and
kind t_lt (such a call always returns true, so the short-circuit on a false
recursive result never fires). -/
def lin_adjacent (eval : Expr → Expr) :
    List (Expr × ℚ) → LinState → Except String (List Expr × LinState)
  | [], st => .ok ([], st)
  | [_], st => .ok ([], st)
  | p :: q :: rest, st =>
    match lin_cmp eval 1 p.1 q.1 .t_lt st with
    | .error e => .error e
    | .ok (_, d1, st1) =>
      match lin_adjacent eval (q :: rest) st1 with
      | .error e => .error e
      | .ok (d2, st2) => .ok (d1 ++ d2, st2)

/-- Result of scanning a negated distinct literal for two arguments with
equal model value (mbp_arith.cpp:132-154). -/
inductive DupScan where
  | badEval
  | noDup
  | dup (argNew argOld : Expr)
deriving DecidableEq

/-- Scans the arguments in order, recording values; stops at the first
argument whose evaluation is not a numeral, or at the first value seen
twice. -/
def findDup (eval : Expr → Expr) : List Expr → List (ℚ × Expr) → DupScan
  | [], _ => .noDup
  | a :: rest, values =>
    match evalNumQ (eval a) with
    | none => .badEval
    | some r =>
      match alook values r with
      | some a2 => .dup a a2
      | none => findDup eval rest ((r, a) :: values)

/-- First element of a list satisfying a predicate. -/
def firstWhere (p : Expr → Bool) : List Expr → Option Expr
  | [] => none
  | a :: rest => if p a then some a else firstWhere p rest

/-- Embeds `imp::linearize` on literals (mbp_arith.cpp:59-192).  Returns
`(submitted, appended side formulas, state)`; `submitted = false` means the
literal was refused and is kept verbatim in the residue by the caller.  The
debug-only evaluation check at the top and the cancellation test
(`m.inc()`) are not modelled (liveness flag always set).  Exactly one
negation is stripped, as in the source. -/
def linearize (eval : Expr → Expr) (lit : Expr) (st : LinState) :
    Except String (Bool × List Expr × LinState) :=
  let stripped : Bool × Expr :=
    match lit with
    | .notE e => (true, e)
    | e => (false, e)
  let is_not := stripped.1
  let mul : ℚ := if is_not then -1 else 1
  match stripped.2 with
  | .leE e1 e2 => lin_cmp eval mul e1 e2 (if is_not then .t_lt else .t_le) st
  | .geE e2 e1 => lin_cmp eval mul e1 e2 (if is_not then .t_lt else .t_le) st
  | .ltE e1 e2 => lin_cmp eval mul e1 e2 (if is_not then .t_le else .t_lt) st
  | .gtE e2 e1 => lin_cmp eval mul e1 e2 (if is_not then .t_le else .t_lt) st
  | .eqE e1 e2 =>
    if is_arith e1 then
      if is_not then
        match evalNumQ (eval e1), evalNumQ (eval e2) with
        | some r1, some r2 =>
          let p : Expr × Expr := if r1 < r2 then (e2, e1) else (e1, e2)
          lin_cmp eval mul p.1 p.2 .t_lt st
        | some _, none => .ok (false, [], st)
        | none, _ => .ok (false, [], st)
      else lin_cmp eval mul e1 e2 .t_eq st
    else .ok (false, [], st)
  | .distinctE args =>
    match args.toList with
    | [] => .ok (false, [], st)
    | a0 :: _ =>
      if is_arith a0 then
        if is_not then
          match findDup eval args.toList [] with
          | .badEval => .ok (false, [], st)
          | .dup a1 a2 => lin_cmp eval mul a1 a2 .t_eq st
          | .noDup =>
            .ok (true, [], ⟨st.mbo.add_constraint [] 0 .t_le, st.tids⟩)
        else
          match evalNums eval args.toList with
          | none => .ok (false, [], st)
          | some nums =>
            match lin_adjacent eval (sortByVal nums) st with
            | .error e => .error e
            | .ok (d, st1) => .ok (true, d, st1)
      else .ok (false, [], st)
  | .andE args =>
    if is_not then
      match firstWhere (fun a => eval a = Expr.falseE) args.toList with
      | some a => .ok (true, [mk_not a], st)
      | none => .ok (false, [], st)
    else .ok (true, args.toList, st)
  | .orE args =>
    if is_not then .ok (true, args.toList.map mk_not, st)
    else
      match firstWhere (fun a => eval a = Expr.trueE) args.toList with
      | some a => .ok (true, [a], st)
      | none => .ok (false, [], st)
  | _ => .ok (false, [], st)

mutual

/-- Embeds the reachability closure of `expr_mark` with `mark_rec`:
`occursIn e t` holds when `e` is `t` itself or occurs anywhere inside `t`
(mark_rec marks a root and all of its subexpressions). -/
def occursIn (e : Expr) (t : Expr) : Bool :=
  if e = t then true
  else
    match t with
    | .addE l => occursInL e l
    | .subE a b => occursIn e a || occursIn e b
    | .uminus a => occursIn e a
    | .mulE a b => occursIn e a || occursIn e b
    | .iteE g a b => occursIn e g || occursIn e a || occursIn e b
    | .modE a b => occursIn e a || occursIn e b
    | .idivE a b => occursIn e a || occursIn e b
    | .divE a b => occursIn e a || occursIn e b
    | .leE a b => occursIn e a || occursIn e b
    | .ltE a b => occursIn e a || occursIn e b
    | .geE a b => occursIn e a || occursIn e b
    | .gtE a b => occursIn e a || occursIn e b
    | .eqE a b => occursIn e a || occursIn e b
    | .distinctE l => occursInL e l
    | .notE a => occursIn e a
    | .andE l => occursInL e l
    | .orE l => occursInL e l
    | _ => false

/-- Occurrence of `e` inside some member of an argument list. -/
def occursInL (e : Expr) : ExprList → Bool
  | .nil => false
  | .cons a l => occursIn e a || occursInL e l

end

/-- Embeds the `is_pure` lambda of `imp::project` (mbp_arith.cpp:379-387):
a mod by a (plain) numeral, or an integer division by a positive numeral. -/
def is_pure (e : Expr) : Bool :=
  match e with
  | .modE _ y =>
    match y with
    | .num _ _ => true
    | _ => false
  | .idivE _ y =>
    match y with
    | .num r _ => decide (0 < r)
    | _ => false
  | _ => false

/-- Embeds the variable registration loop of `imp::project`
(mbp_arith.cpp:362-376): every arithmetic variable not yet in tids is
evaluated (fatal error when the model yields no numeral) and given a fresh
MBO variable primed with its value.  The accompanying `var_mark` marks are
represented by membership in the variable list. -/
def register_vars (eval : Expr → Expr) : List Expr → LinState → Except String LinState
  | [], st => .ok st
  | v :: rest, st =>
    if is_arith v ∧ (alook st.tids v).isNone then
      match evalNumQ (eval v) with
      | none => .error "evaluation did not produce a numeral"
      | some r =>
        let (id, mbo1) := st.mbo.add_var r (isInt v)
        register_vars eval rest ⟨mbo1, aupd st.tids v id⟩
    else register_vars eval rest st

/-- Embeds the purity marking of `imp::project` (mbp_arith.cpp:389-401):
the roots from which `fmls_mark` is populated with `mark_rec`.  The first
group is the impure arithmetic tids entries that are not variables; under
the check-purified policy the kept residue literals and every non-variable
impure tids entry are added.  Marking is a set union of subterm closures,
so only the set of roots matters. -/
def purity_roots (checkPurified : Bool) (vars kept : List Expr)
    (tids : List (Expr × Nat)) : List Expr :=
  (tids.filterMap fun p =>
    if is_arith p.1 ∧ ¬ is_pure p.1 ∧ ¬ (p.1 ∈ vars) then some p.1 else none)
  ++ (if checkPurified then
        kept ++ (tids.filterMap fun p =>
          if ¬ (p.1 ∈ vars) ∧ ¬ is_pure p.1 then some p.1 else none)
      else [])

/-- Membership of `e` in the mark closure of the given roots
(`fmls_mark.is_marked(e)` after all `mark_rec` calls). -/
def fmls_marked (roots : List Expr) (e : Expr) : Bool :=
  roots.any (fun r => occursIn e r)

/-- Embeds the variable split loop of `imp::project` (mbp_arith.cpp:407-415):
arithmetic variables not marked are scheduled for elimination (their MBO id
is appended to `real_vars`), all others are retained in order. -/
def split_vars (roots : List Expr) (tids : List (Expr × Nat)) :
    List Expr → List Expr × List Nat
  | [] => ([], [])
  | v :: rest =>
    let (vs, rv) := split_vars roots tids rest
    if is_arith v ∧ ¬ (fmls_marked roots v = true) then
      (vs, ((alook tids v).getD 0) :: rv)
    else (v :: vs, rv)

/-- Embeds the `index2expr` construction (mbp_arith.cpp:403-405): a map
from MBO id to the expression it stands for, built by iterating tids
(`setx` overwrites). -/
def mk_index2expr (tids : List (Expr × Nat)) : List (Nat × Expr) :=
  tids.foldl (fun acc p => aupd acc p.2 p.1) []

/-- One live MBO row `Σ vars + coeff ⟨ty⟩ 0` (opt::model_based_opt::row as
read back by `get_live_rows`), with modulus `modM` and defined variable id
`idR` for mod/div/divides rows. -/
structure Row where
  vars : List MVar
  coeff : ℚ
  ty : IneqType
  modM : ℚ
  idR : Nat
deriving DecidableEq

/-- Embeds `a.mk_add_simplify` as used by `mk_add` (mbp_arith.cpp:590-592):
the integer numeral 0 for no summands, the summand itself for one, and an
n-ary add node otherwise. -/
def mk_add : List Expr → Expr
  | [] => .num 0 true
  | [t] => t
  | ts => .addE (ExprList.ofList ts)

/-- Embeds the per-variable term construction inside `row2expr`
(mbp_arith.cpp:505-514): a zero-valued numeral is dropped, a numeral is
folded with the coefficient, and a non-unit coefficient is attached as a
multiplication. -/
def rowTerm1 (t : Expr) (coeff : ℚ) : List Expr :=
  match evalNumQ t with
  | some n => if n = 0 then [] else [Expr.num (coeff * n) (isInt t)]
  | none => if coeff = 1 then [t] else [Expr.mulE (Expr.num coeff (isInt t)) t]

/-- The loop over `r.m_vars` inside `row2expr` (mbp_arith.cpp:505-514),
parameterized by the id resolver (`id2expr` at the appropriate depth). -/
def rowTermsAux (resolve : Nat → Expr) : List MVar → List Expr
  | [] => []
  | v :: vs => rowTerm1 (resolve v.id) v.coeff ++ rowTermsAux resolve vs

/-- Body of `row2expr` (mbp_arith.cpp:501-542), parameterized by the id
resolver. -/
def row2exprAux (resolve : Nat → Expr) (r : Row) : Expr :=
  let ts := rowTermsAux resolve r.vars
  match r.ty with
  | .t_mod =>
    if ts.isEmpty then .num (qmod r.coeff r.modM) true
    else
      let ts1 := if r.coeff ≠ 0 then ts ++ [Expr.num r.coeff true] else ts
      .modE (mk_add ts1) (.num r.modM true)
  | .t_div =>
    if ts.isEmpty then .num (qdiv r.coeff r.modM) true
    else
      let ts1 := if r.coeff ≠ 0 then ts ++ [Expr.num r.coeff true] else ts
      .idivE (mk_add ts1) (.num r.modM true)
  | .t_divides => mk_add (ts ++ [Expr.num r.coeff true])
  | _ => mk_add ts

/-- Embeds `id2expr` (mbp_arith.cpp:494-499): an id that heads a mod/div
pseudo-row expands to the reification of that row, otherwise to the host
expression recorded for it.  The source recursion carries no bound and
relies on the kernel emitting acyclic pseudo-rows; the fuel argument is a
modelling device, chosen at the call sites to dominate the depth of every
acyclic chain (on cyclic pseudo-rows the source would not terminate). -/
def id2expr (dv : List (Nat × Row)) (i2e : List (Nat × Expr)) :
    Nat → Nat → Expr
  | 0, _ => .num 0 true
  | fuel + 1, id =>
    match alook dv id with
    | some r => row2exprAux (fun i => id2expr dv i2e fuel i) r
    | none => (alook i2e id).getD (.num 0 true)

/-- Embeds `row2expr` (mbp_arith.cpp:501-542): the reification body with
the id resolver at the given depth. -/
def row2expr (dv : List (Nat × Row)) (i2e : List (Nat × Expr))
    (fuel : Nat) (r : Row) : Expr :=
  row2exprAux (fun i => id2expr dv i2e fuel i) r

/-- Embeds the `def_vars` map construction of `imp::project`
(mbp_arith.cpp:423-431): mod and div rows are indexed by the variable they
define. -/
def mk_def_vars (rows : List Row) : List (Nat × Row) :=
  rows.foldl (fun dv r =>
    if r.ty = .t_mod then aupd dv r.idR r
    else if r.ty = .t_div then aupd dv r.idR r
    else dv) []

/-- Embeds the sign-normalized single-variable emission of `rows2fmls`
(mbp_arith.cpp:556-571): for a row with exactly one variable of negative
coefficient and kind le/lt/eq, emit the form with positive coefficient on
the left. -/
def norm1 (dv : List (Nat × Row)) (i2e : List (Nat × Expr)) (fuel : Nat)
    (r : Row) : Expr :=
  let v := r.vars.headD ⟨0, 0⟩
  let t0 := id2expr dv i2e fuel v.id
  let t := if v.coeff = -1 then t0 else .mulE (.num (-v.coeff) (isInt t0)) t0
  let s := Expr.num r.coeff (isInt t)
  match r.ty with
  | .t_lt => .gtE t s
  | .t_le => .geE t s
  | _ => .eqE t s

/-- Embeds the general emission of `rows2fmls` (mbp_arith.cpp:573-586):
translate the row to `sum ⟨op⟩ -coeff`, or to a mod-equals-zero literal
for a divides row.  The final catch-all mirrors the UNREACHABLE default of
the source switch; it is never taken because the caller skips mod/div
rows. -/
def rowFml (dv : List (Nat × Row)) (i2e : List (Nat × Expr)) (fuel : Nat)
    (r : Row) : Expr :=
  let t := row2expr dv i2e fuel r
  let s := Expr.num (-r.coeff) (r.coeff.isInt && isInt t)
  match r.ty with
  | .t_lt => .ltE t s
  | .t_le => .leE t s
  | .t_eq => .eqE t s
  | .t_divides => .eqE (.modE t (.num r.modM true)) (.num 0 true)
  | _ => .eqE t s

/-- Embeds `rows2fmls` (mbp_arith.cpp:544-588): rows with no variables and
rows of kind mod/div are skipped; a single-variable row with negative
coefficient and kind le/lt/eq is sign-normalized; every other row is
emitted by the general translation. -/
def rows2fmls (dv : List (Nat × Row)) (i2e : List (Nat × Expr))
    (fuel : Nat) : List Row → List Expr
  | [] => []
  | r :: rest =>
    if r.vars.isEmpty then rows2fmls dv i2e fuel rest
    else if r.ty = .t_mod then rows2fmls dv i2e fuel rest
    else if r.ty = .t_div then rows2fmls dv i2e fuel rest
    else if r.vars.length = 1 ∧ (r.vars.headD ⟨0, 0⟩).coeff < 0 ∧
            (r.ty = .t_eq ∨ r.ty = .t_le ∨ r.ty = .t_lt) then
      norm1 dv i2e fuel r :: rows2fmls dv i2e fuel rest
    else
      rowFml dv i2e fuel r :: rows2fmls dv i2e fuel rest

/-- Definitions returned by the MBO kernel for eliminated variables
(opt::model_based_opt::def and its subclasses). -/
inductive MboDef where
  | constD (c : ℚ)
  | varD (v : MVar)
  | addD (x y : MboDef)
  | mulD (x y : MboDef)
  | divD (x : MboDef) (m : ℚ)
deriving DecidableEq

/-- Embeds `from_def` (mbp_arith.cpp:451-481): reification of a kernel
definition tree into a host expression, typed by the integrality of the
defined variable. -/
def from_def (dv : List (Nat × Row)) (i2e : List (Nat × Expr)) (fuel : Nat)
    (isI : Bool) : MboDef → Expr
  | .addD x y =>
    .addE (.cons (from_def dv i2e fuel isI x)
      (.cons (from_def dv i2e fuel isI y) .nil))
  | .mulD x y => .mulE (from_def dv i2e fuel isI x) (from_def dv i2e fuel isI y)
  | .constD c => .num c isI
  | .varD v =>
    let t := id2expr dv i2e fuel v.id
    if v.coeff = 1 then t else .mulE (.num v.coeff isI) t
  | .divD x m =>
    let t := from_def dv i2e fuel isI x
    if isI then .idivE t (.num m isI) else .divE t (.num m isI)

/-- Embeds `optdefs2mbpdef` (mbp_arith.cpp:483-492): pair each eliminated
variable with the reification of its kernel definition. -/
def optdefs2mbpdef (dv : List (Nat × Row)) (i2e : List (Nat × Expr))
    (fuel : Nat) (defs : List MboDef) (realVars : List Nat) :
    List (Expr × Expr) :=
  (defs.zip realVars).map fun p =>
    let x := (alook i2e p.2).getD (.num 0 true)
    (x, from_def dv i2e fuel (isInt x) p.1)

/-- Weight of a formula for the linearization loop budget. -/
def weightE (f : Expr) : Nat := 4 ^ sizeE f

/-- Total weight of a formula list. -/
def weightL (l : List Expr) : Nat := (l.map weightE).sum

/-- Embeds the linearization loop of `imp::project` (mbp_arith.cpp:338-348).
The source iterates over the formula vector by index while `linearize`
appends side formulas to its end, so at each step the worklist is the
remaining formulas followed by the newly appended ones; literals that are
not linearized are kept, compacted in processing order.  The source loop
carries no explicit bound; the fuel argument is a modelling device and
`project` passes a budget that dominates the number of iterations (the
total worklist weight strictly decreases at each step). -/
def projectLoop (eval : Expr → Expr) :
    Nat → List Expr → List Expr → LinState →
    Except String (List Expr × LinState)
  | _, [], kept, st => .ok (kept, st)
  | 0, _ :: _, _, _ => .error "mbp linearization loop budget exhausted"
  | fuel + 1, f :: rest, kept, st =>
    match linearize eval f st with
    | .error e => .error e
    | .ok (ok1, delta, st1) =>
      projectLoop eval fuel (rest ++ delta)
        (if ok1 then kept else kept ++ [f]) st1

/-- One pass over a list of literals without recursing into the appended
side formulas: records the per-literal success flags, the concatenated side
formulas and the final state.  Used to state in what order the loop keeps
literals. -/
def pass1 (eval : Expr → Expr) :
    List Expr → LinState → Except String (List Bool × List Expr × LinState)
  | [], st => .ok ([], [], st)
  | f :: rest, st =>
    match linearize eval f st with
    | .error e => .error e
    | .ok (ok1, delta, st1) =>
      match pass1 eval rest st1 with
      | .error e => .error e
      | .ok (bs, ds, st2) => .ok (ok1 :: bs, delta ++ ds, st2)

/-- The sublist of literals whose success flag is false (the kept,
non-linearizable ones), in their original relative order. -/
def maskKeep : List Expr → List Bool → List Expr
  | [], _ => []
  | _ :: _, [] => []
  | f :: fs, b :: bs => if b then maskKeep fs bs else f :: maskKeep fs bs

/-- Oracle for the MBO kernel projection: given the kernel state built by
linearization, the ids to eliminate and the compute-definitions flag, it
returns the live rows after projection (in emission order) and the
per-eliminated-variable definitions (`mbo.project` followed by
`get_live_rows`; both live in the kernel, outside src/). -/
def KernelOracle : Type := Mbo → List Nat → Bool → List Row × List MboDef

/-- Embeds `imp::project` (mbp_arith.cpp:320-449) in the configuration the
claims exercise: `m_apply_projection = false` (its default construction
value).  The model and its evaluator enter through `eval`; the kernel
projection through the oracle.  The Boolean component of the result is the
source return value; the false returns of the source arise only from
cancellation (not modelled: the liveness flag is taken as always set) and
from the apply-projection mode, so it is true here.  Fatal evaluation
failures propagate as errors. -/
def project (eval : Expr → Expr) (kernel : KernelOracle) (checkPurified : Bool)
    (vars : List Expr) (fmls : List Expr) (computeDef : Bool) :
    Except String (Bool × List Expr × List Expr × List (Expr × Expr)) :=
  if ¬ vars.any is_arith then .ok (true, vars, fmls, [])
  else
    match projectLoop eval (weightL fmls) fmls [] ⟨mbo0, []⟩ with
    | .error e => .error e
    | .ok (kept, st1) =>
      match register_vars eval vars st1 with
      | .error e => .error e
      | .ok st2 =>
        let roots := purity_roots checkPurified vars kept st2.tids
        let i2e := mk_index2expr st2.tids
        let (varsOut, realVars) := split_vars roots st2.tids vars
        let (rows, kdefs) := kernel st2.mbo realVars computeDef
        let dv := mk_def_vars rows
        let fuel := dv.length + 1
        let fmlsOut := kept ++ rows2fmls dv i2e fuel rows
        let result :=
          if computeDef then optdefs2mbpdef dv i2e fuel kdefs realVars else []
        .ok (true, varsOut, fmlsOut, result)

/-- Embeds `imp::project1` (mbp_arith.cpp:302-307): project the singleton
list `[v]` without computing definitions and report success only when the
projection succeeded and the singleton list came back empty.  The
`vars` in-out argument of the source is ignored by the source as well. -/
def project1 (eval : Expr → Expr) (kernel : KernelOracle) (v : Expr)
    (lits : List Expr) : Except String (Bool × List Expr) :=
  match project eval kernel true [v] lits false with
  | .error e => .error e
  | .ok (b, vs, fs, _) => .ok (b && vs.isEmpty, fs)

/-- Optimal values of the MBO maximization (opt::inf_eps): the value is
`inf·∞ + r + eps·ε`; it is finite when the infinity coefficient is zero. -/
structure InfEps where
  inf : ℚ
  r : ℚ
  eps : ℚ
deriving DecidableEq

/-- Embeds `inf_eps::is_finite`. -/
def InfEps.is_finite (v : InfEps) : Bool := v.inf = 0

/-- Embeds the bound construction tail of `imp::maximize`
(mbp_arith.cpp:635-652).  The preceding steps (objective and constraint
linearization, the kernel maximization, and the write-back of optimized
values into the model) determine the two inputs: `value` is the result of
`mbo.maximize()` and `eval t` is the evaluation of the objective in the
updated model.  `val` is the real-sorted numeral holding the rational part
of `value`. -/
def maximize_bounds (eval : Expr → Expr) (t : Expr) (value : InfEps) :
    Expr × Expr :=
  let val := Expr.num value.r false
  let tval := eval t
  if ¬ value.is_finite then (.geE t tval, .falseE)
  else if value.eps < 0 then (.geE t tval, .geE t val)
  else (.geE t val, .gtE t val)

/-- Fields of theory_bv_params as referenced by
src/params/theory_bv_params.cpp: the six fields written by `updt_params`
(lines 23-32) and the further four printed by `display` (lines 36-47).
The enumeration, unsigned and symbol field types are represented by Nat and
String; only which fields are written matters here. -/
structure theory_bv_params where
  m_bv_mode : Nat
  m_hi_div0 : Bool
  m_bv_reflect : Bool
  m_bv_lazy_le : Bool
  m_bv_cc : Bool
  m_bv_blast_max_size : Nat
  m_bv_enable_int2bv2int : Bool
  m_bv_delay : Bool
  m_bv_size_reduce : Bool
  m_bv_solver : String
deriving DecidableEq

/-- The six values `updt_params` reads from the parameter set through
smt_params_helper and bv_rewriter_params (external generated accessors). -/
structure params_ref where
  hi_div0 : Bool
  bv_reflect : Bool
  bv_enable_int2bv : Bool
  bv_delay : Bool
  bv_size_reduce : Bool
  bv_solver : String
deriving DecidableEq

/-- Embeds `theory_bv_params::updt_params` (theory_bv_params.cpp:23-32):
assigns exactly six fields from the parameter set. -/
def theory_bv_params.updt_params (s : theory_bv_params) (p : params_ref) :
    theory_bv_params :=
  { s with
    m_hi_div0 := p.hi_div0
    m_bv_reflect := p.bv_reflect
    m_bv_enable_int2bv2int := p.bv_enable_int2bv
    m_bv_delay := p.bv_delay
    m_bv_size_reduce := p.bv_size_reduce
    m_bv_solver := p.bv_solver }

/-- Destructor view of `a.is_numeral(t, r)` on syntax (a plain numeral
node). -/
def is_num? : Expr → Option ℚ
  | .num q _ => some q
  | _ => none

/-- Destructor view of `a.is_mul(t, t1, t2)`. -/
def is_mul? : Expr → Option (Expr × Expr)
  | .mulE a b => some (a, b)
  | _ => none

/-- Destructor view of `a.is_uminus(t, t1)`. -/
def is_uminus? : Expr → Option Expr
  | .uminus a => some a
  | _ => none

/-- Destructor view of `a.is_add(t)`. -/
def is_add? : Expr → Option ExprList
  | .addE l => some l
  | _ => none

/-- Destructor view of `a.is_sub(t, t1, t2)`. -/
def is_sub? : Expr → Option (Expr × Expr)
  | .subE a b => some (a, b)
  | _ => none

/-- Destructor view of `m.is_ite(t, t1, t2, t3)`. -/
def is_ite? : Expr → Option (Expr × Expr × Expr)
  | .iteE g a b => some (g, a, b)
  | _ => none

/-- Destructor view of `a.is_mod(t, t1, t2)`. -/
def is_mod? : Expr → Option (Expr × Expr)
  | .modE a b => some (a, b)
  | _ => none

/-- Destructor view of `a.is_idiv(t, t1, t2)`. -/
def is_idiv? : Expr → Option (Expr × Expr)
  | .idivE a b => some (a, b)
  | _ => none

mutual

/-- Literal rendition of the dispatch chain of `imp::linearize` on terms
(mbp_arith.cpp:212-280) with every arm present in source order, including
the second mod-by-positive-numeral arm (mbp_arith.cpp:261-276, the
add_divides arm) whose guard repeats the guard of the first
(mbp_arith.cpp:248).  Each chain stage tests one source condition and
otherwise defers to the next stage.  Proved below to coincide with
`linearize_term`, which omits the unreachable add_divides arm. -/
def linearize_term_chain (eval : Expr → Expr) (mul : ℚ) (t : Expr)
    (acc : LinRes) : Except String LinRes :=
  if (alook acc.st.tids t).isSome then
    .ok { acc with ts := insert_mul t mul acc.ts }
  else chain_mul eval mul t acc
termination_by sizeE t * 16 + 9
decreasing_by
  all_goals simp_wf
  all_goals
    (first
      | omega
      | (cases t <;>
          simp_all [is_mul?, is_uminus?, is_add?, is_sub?, is_ite?, is_mod?,
            is_idiv?, sizeE, sizeL] <;> omega)
      | (have h1 : 1 ≤ sizeE e := by cases e <;> simp [sizeE] <;> omega
         simp only [sizeL] at * <;> omega))

/-- Chain stage for the two mul-by-numeral arms (mbp_arith.cpp:214-217). -/
def chain_mul (eval : Expr → Expr) (mul : ℚ) (t : Expr) (acc : LinRes) :
    Except String LinRes :=
  match h : is_mul? t with
  | some (t1, t2) =>
    match is_extended_numeral t1 with
    | some k => linearize_term_chain eval (mul * k) t2 acc
    | none =>
      match is_extended_numeral t2 with
      | some k => linearize_term_chain eval (mul * k) t1 acc
      | none => chain_uminus eval mul t acc
  | none => chain_uminus eval mul t acc
termination_by sizeE t * 16 + 8
decreasing_by
  all_goals simp_wf
  all_goals
    (first
      | omega
      | (cases t <;>
          simp_all [is_mul?, is_uminus?, is_add?, is_sub?, is_ite?, is_mod?,
            is_idiv?, sizeE, sizeL] <;> omega)
      | (have h1 : 1 ≤ sizeE e := by cases e <;> simp [sizeE] <;> omega
         simp only [sizeL] at * <;> omega))

/-- Chain stage for the unary minus arm (mbp_arith.cpp:218-219). -/
def chain_uminus (eval : Expr → Expr) (mul : ℚ) (t : Expr) (acc : LinRes) :
    Except String LinRes :=
  match h : is_uminus? t with
  | some t1 => linearize_term_chain eval (-mul) t1 acc
  | none => chain_num eval mul t acc
termination_by sizeE t * 16 + 7
decreasing_by
  all_goals simp_wf
  all_goals
    (first
      | omega
      | (cases t <;>
          simp_all [is_mul?, is_uminus?, is_add?, is_sub?, is_ite?, is_mod?,
            is_idiv?, sizeE, sizeL] <;> omega)
      | (have h1 : 1 ≤ sizeE e := by cases e <;> simp [sizeE] <;> omega
         simp only [sizeL] at * <;> omega))

/-- Chain stage for the numeral arm (mbp_arith.cpp:220-221). -/
def chain_num (eval : Expr → Expr) (mul : ℚ) (t : Expr) (acc : LinRes) :
    Except String LinRes :=
  match is_num? t with
  | some q => .ok { acc with c := acc.c + mul * q }
  | none => chain_add eval mul t acc
termination_by sizeE t * 16 + 6
decreasing_by
  all_goals simp_wf
  all_goals
    (first
      | omega
      | (cases t <;>
          simp_all [is_mul?, is_uminus?, is_add?, is_sub?, is_ite?, is_mod?,
            is_idiv?, sizeE, sizeL] <;> omega)
      | (have h1 : 1 ≤ sizeE e := by cases e <;> simp [sizeE] <;> omega
         simp only [sizeL] at * <;> omega))

/-- Chain stage for the n-ary addition arm (mbp_arith.cpp:222-225). -/
def chain_add (eval : Expr → Expr) (mul : ℚ) (t : Expr) (acc : LinRes) :
    Except String LinRes :=
  match h : is_add? t with
  | some args => chain_list eval mul args acc
  | none => chain_sub eval mul t acc
termination_by sizeE t * 16 + 5
decreasing_by
  all_goals simp_wf
  all_goals
    (first
      | omega
      | (cases t <;>
          simp_all [is_mul?, is_uminus?, is_add?, is_sub?, is_ite?, is_mod?,
            is_idiv?, sizeE, sizeL] <;> omega)
      | (have h1 : 1 ≤ sizeE e := by cases e <;> simp [sizeE] <;> omega
         simp only [sizeL] at * <;> omega))

/-- Chain stage for the subtraction arm (mbp_arith.cpp:226-229). -/
def chain_sub (eval : Expr → Expr) (mul : ℚ) (t : Expr) (acc : LinRes) :
    Except String LinRes :=
  match h : is_sub? t with
  | some (t1, t2) =>
    match linearize_term_chain eval mul t1 acc with
    | .error e => .error e
    | .ok acc1 => linearize_term_chain eval (-mul) t2 acc1
  | none => chain_ite eval mul t acc
termination_by sizeE t * 16 + 4
decreasing_by
  all_goals simp_wf
  all_goals
    (first
      | omega
      | (cases t <;>
          simp_all [is_mul?, is_uminus?, is_add?, is_sub?, is_ite?, is_mod?,
            is_idiv?, sizeE, sizeL] <;> omega)
      | (have h1 : 1 ≤ sizeE e := by cases e <;> simp [sizeE] <;> omega
         simp only [sizeL] at * <;> omega))

/-- Chain stage for the model-guided conditional arm
(mbp_arith.cpp:231-247). -/
def chain_ite (eval : Expr → Expr) (mul : ℚ) (t : Expr) (acc : LinRes) :
    Except String LinRes :=
  match h : is_ite? t with
  | some (t1, t2, t3) =>
    let val := eval t1
    if val = .trueE then
      match linearize_term_chain eval mul t2 acc with
      | .error e => .error e
      | .ok acc1 => .ok { acc1 with out := acc1.out ++ [t1] }
    else if val = .falseE then
      linearize_term_chain eval mul t3 { acc with out := acc.out ++ [mk_not t1] }
    else
      .error "mbp evaluation did not produce a truth value"
  | none => chain_mod eval mul t acc
termination_by sizeE t * 16 + 3
decreasing_by
  all_goals simp_wf
  all_goals
    (first
      | omega
      | (cases t <;>
          simp_all [is_mul?, is_uminus?, is_add?, is_sub?, is_ite?, is_mod?,
            is_idiv?, sizeE, sizeL] <;> omega)
      | (have h1 : 1 ≤ sizeE e := by cases e <;> simp [sizeE] <;> omega
         simp only [sizeL] at * <;> omega))

/-- Chain stage for the first mod-by-positive-numeral arm
(mbp_arith.cpp:248-254). -/
def chain_mod (eval : Expr → Expr) (mul : ℚ) (t : Expr) (acc : LinRes) :
    Except String LinRes :=
  match h : is_mod? t with
  | some (t1, t2) =>
    match is_extended_numeral t2 with
    | some k =>
      if 0 < k then
        match linearize_term_chain eval 1 t1 ⟨0, [], acc.out, acc.st⟩ with
        | .error e => .error e
        | .ok r0 =>
          match extract_coefficients eval r0.ts r0.st with
          | .error e => .error e
          | .ok (coeffs, st1) =>
            let ts1 := insert_mul t mul acc.ts
            let (id, mbo1) := st1.mbo.add_mod coeffs r0.c k
            .ok ⟨acc.c, ts1, r0.out, ⟨mbo1, aupd st1.tids t id⟩⟩
      else chain_idiv eval mul t acc
    | none => chain_idiv eval mul t acc
  | none => chain_idiv eval mul t acc
termination_by sizeE t * 16 + 2
decreasing_by
  all_goals simp_wf
  all_goals
    (first
      | omega
      | (cases t <;>
          simp_all [is_mul?, is_uminus?, is_add?, is_sub?, is_ite?, is_mod?,
            is_idiv?, sizeE, sizeL] <;> omega)
      | (have h1 : 1 ≤ sizeE e := by cases e <;> simp [sizeE] <;> omega
         simp only [sizeL] at * <;> omega))

/-- Chain stage for the idiv-by-positive-numeral arm
(mbp_arith.cpp:255-260). -/
def chain_idiv (eval : Expr → Expr) (mul : ℚ) (t : Expr) (acc : LinRes) :
    Except String LinRes :=
  match h : is_idiv? t with
  | some (t1, t2) =>
    match is_extended_numeral t2 with
    | some k =>
      if 0 < k then
        match linearize_term_chain eval 1 t1 ⟨0, [], acc.out, acc.st⟩ with
        | .error e => .error e
        | .ok r0 =>
          match extract_coefficients eval r0.ts r0.st with
          | .error e => .error e
          | .ok (coeffs, st1) =>
            let ts1 := insert_mul t mul acc.ts
            let (id, mbo1) := st1.mbo.add_div coeffs r0.c k
            .ok ⟨acc.c, ts1, r0.out, ⟨mbo1, aupd st1.tids t id⟩⟩
      else chain_mod_divides eval mul t acc
    | none => chain_mod_divides eval mul t acc
  | none => chain_mod_divides eval mul t acc
termination_by sizeE t * 16 + 1
decreasing_by
  all_goals simp_wf
  all_goals
    (first
      | omega
      | (cases t <;>
          simp_all [is_mul?, is_uminus?, is_add?, is_sub?, is_ite?, is_mod?,
            is_idiv?, sizeE, sizeL] <;> omega)
      | (have h1 : 1 ≤ sizeE e := by cases e <;> simp [sizeE] <;> omega
         simp only [sizeL] at * <;> omega))

/-- Chain stage for the second mod-by-positive-numeral arm
(mbp_arith.cpp:261-276): evaluate the mod term under the model (fatal error
when the result is no numeral), add its value to the scalar, linearize the
argument against the negated value and submit a divides constraint.  Its
guard is syntactically identical to the guard of `chain_mod`. -/
def chain_mod_divides (eval : Expr → Expr) (mul : ℚ) (t : Expr) (acc : LinRes) :
    Except String LinRes :=
  match h : is_mod? t with
  | some (t1, t2) =>
    match is_extended_numeral t2 with
    | some k =>
      if 0 < k then
        match evalNumQ (eval t) with
        | none => .error "mbp evaluation did not produce an integer"
        | some r =>
          match linearize_term_chain eval 1 t1 ⟨-r, [], acc.out, acc.st⟩ with
          | .error e => .error e
          | .ok r0 =>
            match extract_coefficients eval r0.ts r0.st with
            | .error e => .error e
            | .ok (coeffs, st1) =>
              .ok ⟨acc.c + mul * r, acc.ts, r0.out,
                   ⟨st1.mbo.add_divides coeffs r0.c k, st1.tids⟩⟩
      else .ok { acc with ts := insert_mul t mul acc.ts }
    | none => .ok { acc with ts := insert_mul t mul acc.ts }
  | none => .ok { acc with ts := insert_mul t mul acc.ts }
termination_by sizeE t * 16 + 0
decreasing_by
  all_goals simp_wf
  all_goals
    (first
      | omega
      | (cases t <;>
          simp_all [is_mul?, is_uminus?, is_add?, is_sub?, is_ite?, is_mod?,
            is_idiv?, sizeE, sizeL] <;> omega)
      | (have h1 : 1 ≤ sizeE e := by cases e <;> simp [sizeE] <;> omega
         simp only [sizeL] at * <;> omega))

/-- Chain counterpart of `linearize_term_list` (the loop of the is_add
arm). -/
def chain_list (eval : Expr → Expr) (mul : ℚ) (l : ExprList) (acc : LinRes) :
    Except String LinRes :=
  match l with
  | .nil => .ok acc
  | .cons e es =>
    match linearize_term_chain eval mul e acc with
    | .error err => .error err
    | .ok acc1 => chain_list eval mul es acc1
termination_by sizeL l * 16 + 10
decreasing_by
  all_goals simp_wf
  all_goals
    (first
      | omega
      | (cases t <;>
          simp_all [is_mul?, is_uminus?, is_add?, is_sub?, is_ite?, is_mod?,
            is_idiv?, sizeE, sizeL] <;> omega)
      | (have h1 : 1 ≤ sizeE e := by cases e <;> simp [sizeE] <;> omega
         simp only [sizeL] at * <;> omega))

end

/-- Specification-side predicate (spec section 4.7): the rows that produce
an output literal are those with at least one variable that are not mod/div
pseudo-rows. -/
def emitsRow (r : Row) : Bool :=
  (¬ r.vars.isEmpty) && ¬ (r.ty = IneqType.t_mod) && ¬ (r.ty = IneqType.t_div)

/-- Specification-side per-row reification (spec section 4.7): the
sign-normalized form for a single-variable row with negative coefficient
and kind le/lt/eq, the general translation otherwise. -/
def reifyRow (dv : List (Nat × Row)) (i2e : List (Nat × Expr)) (fuel : Nat)
    (r : Row) : Expr :=
  if r.vars.length = 1 ∧ (r.vars.headD ⟨0, 0⟩).coeff < 0 ∧
      (r.ty = .t_eq ∨ r.ty = .t_le ∨ r.ty = .t_lt) then
    norm1 dv i2e fuel r
  else rowFml dv i2e fuel r

/-- Numeral value of the evaluation of an expression: `some r` when the
model evaluator yields the numeral `r`, otherwise `none`. -/
def evalQ (eval : Expr → Expr) (e : Expr) : Option ℚ := evalNumQ (eval e)

/-- Numeral values of the evaluations of all members of an argument list
(`none` if any member has none). -/
def evalsQL (eval : Expr → Expr) : ExprList → Option (List ℚ)
  | .nil => some []
  | .cons e es =>
    match evalQ eval e, evalsQL eval es with
    | some v, some vs => some (v :: vs)
    | _, _ => none

/-- Value of a coefficient accumulator under the model evaluation: the sum
of coefficient times evaluated value over all entries (entries with no
numeral evaluation count as zero; `TsOK` rules those out). -/
def tsVal (eval : Expr → Expr) (ts : List (Expr × ℚ)) : ℚ :=
  (ts.map (fun p => p.2 * ((evalQ eval p.1).getD 0))).sum

/-- Every accumulator entry evaluates to a numeral. -/
def TsOK (eval : Expr → Expr) (ts : List (Expr × ℚ)) : Prop :=
  ∀ p ∈ ts, (evalQ eval p.1).isSome

/-- Value of a submitted constraint under the MBO variable values:
`Σ coeffs + c`. -/
def conVal (mbo : Mbo) (con : Con) : ℚ := coeffsVal mbo con.coeffs + con.c

/-- Invariant tying tids to the MBO variable values: every mapped
expression evaluates under the model to a numeral equal to the initial
value of its MBO variable (spec section 3: every MBO variable is primed
with the model value of the expression it abstracts). -/
def INVtids (eval : Expr → Expr) (st : LinState) : Prop :=
  ∀ p ∈ st.tids, p.2 < st.mbo.values.length ∧
    evalQ eval p.1 = some (mboVal st.mbo p.2)

/-- Modelled from the spec: coherence contract of the external model
evaluator (with model completion); the evaluator lives outside src/.  On
arithmetic nodes whose arguments evaluate to numerals the evaluation
respects the arithmetic structure, and a conditional evaluates to its
guard-selected branch.  This is what makes the stated invariant hold that
submitted constraints are satisfied by the initial variable values. -/
structure EvalHom (eval : Expr → Expr) : Prop where
  hnum : ∀ q b, evalQ eval (.num q b) = some q
  hadd : ∀ l vs, evalsQL eval l = some vs → evalQ eval (.addE l) = some vs.sum
  hsub : ∀ a b x y, evalQ eval a = some x → evalQ eval b = some y →
    evalQ eval (.subE a b) = some (x - y)
  hneg : ∀ a x, evalQ eval a = some x → evalQ eval (.uminus a) = some (-x)
  hmul : ∀ a b x y, evalQ eval a = some x → evalQ eval b = some y →
    evalQ eval (.mulE a b) = some (x * y)
  hiteT : ∀ g a b, eval g = .trueE → evalQ eval (.iteE g a b) = evalQ eval a
  hiteF : ∀ g a b, eval g = .falseE → evalQ eval (.iteE g a b) = evalQ eval b
  hmod : ∀ a k x m, evalQ eval a = some x → evalQ eval k = some m →
    evalQ eval (.modE a k) = some (qmod x m)
  hidiv : ∀ a k x m, evalQ eval a = some x → evalQ eval k = some m →
    evalQ eval (.idivE a k) = some (qdiv x m)

/-- Pairwise distinctness of a list of rationals. -/
def distinctQ : List ℚ → Bool
  | [] => true
  | x :: rest => rest.all (fun y => decide (x ≠ y)) && distinctQ rest

mutual

/-- Rational value of an expression under a reference model that assigns
`σ n` to arithmetic variable `n` and `β n` to Boolean variable `n`; total
via defaults.  Used to build concrete model evaluators satisfying the
evaluator contract, and as the denotation in equivalence statements. -/
def evalRefQ (σ : Nat → ℚ) (β : Nat → Bool) : Expr → ℚ
  | .var n _ => σ n
  | .num q _ => q
  | .addE l => evalRefQL σ β l
  | .subE a b => evalRefQ σ β a - evalRefQ σ β b
  | .uminus a => -evalRefQ σ β a
  | .mulE a b => evalRefQ σ β a * evalRefQ σ β b
  | .iteE g a b => if evalRefB σ β g then evalRefQ σ β a else evalRefQ σ β b
  | .modE a k => qmod (evalRefQ σ β a) (evalRefQ σ β k)
  | .idivE a k => qdiv (evalRefQ σ β a) (evalRefQ σ β k)
  | .divE a k => evalRefQ σ β a / evalRefQ σ β k
  | _ => 0

/-- Boolean value of an expression under the reference model. -/
def evalRefB (σ : Nat → ℚ) (β : Nat → Bool) : Expr → Bool
  | .var n _ => β n
  | .leE a b => decide (evalRefQ σ β a ≤ evalRefQ σ β b)
  | .ltE a b => decide (evalRefQ σ β a < evalRefQ σ β b)
  | .geE a b => decide (evalRefQ σ β b ≤ evalRefQ σ β a)
  | .gtE a b => decide (evalRefQ σ β b < evalRefQ σ β a)
  | .eqE a b =>
    if is_arith a then decide (evalRefQ σ β a = evalRefQ σ β b)
    else decide (evalRefB σ β a = evalRefB σ β b)
  | .distinctE l => distinctQ (evalRefVals σ β l)
  | .notE a => ! evalRefB σ β a
  | .andE l => evalRefAll σ β l
  | .orE l => evalRefAny σ β l
  | .trueE => true
  | .falseE => false
  | _ => false

/-- Sum of the rational values of an argument list. -/
def evalRefQL (σ : Nat → ℚ) (β : Nat → Bool) : ExprList → ℚ
  | .nil => 0
  | .cons e es => evalRefQ σ β e + evalRefQL σ β es

/-- Rational values of the members of an argument list. -/
def evalRefVals (σ : Nat → ℚ) (β : Nat → Bool) : ExprList → List ℚ
  | .nil => []
  | .cons e es => evalRefQ σ β e :: evalRefVals σ β es

/-- Conjunction of the Boolean values of an argument list. -/
def evalRefAll (σ : Nat → ℚ) (β : Nat → Bool) : ExprList → Bool
  | .nil => true
  | .cons e es => evalRefB σ β e && evalRefAll σ β es

/-- Disjunction of the Boolean values of an argument list. -/
def evalRefAny (σ : Nat → ℚ) (β : Nat → Bool) : ExprList → Bool
  | .nil => false
  | .cons e es => evalRefB σ β e || evalRefAny σ β es

end

/-- Reference model evaluator built from the reference model: numerals for
arithmetic expressions, truth constants for Boolean ones, identity
otherwise. -/
def evalRef (σ : Nat → ℚ) (β : Nat → Bool) (e : Expr) : Expr :=
  match sortOf e with
  | .int => .num (evalRefQ σ β e) true
  | .real => .num (evalRefQ σ β e) false
  | .bool => if evalRefB σ β e then .trueE else .falseE
  | .other => e

/-- Concrete model evaluator for concrete runs: Boolean variable 0 is
true, integer variables 1 and 2 evaluate to 1 and 2. -/
def evalGuardEx : Expr → Expr := fun e =>
  match e with
  | .var 0 .bool => .trueE
  | .var 1 .int => .num 1 true
  | .var 2 .int => .num 2 true
  | .var 3 .int => .num 0 true
  | _ => .falseE

/-- Concrete literal for concrete runs: a conditional bound
`ite(b0, x1, x2) ≤ x3`. -/
def litGuardEx : Expr :=
  .leE (.iteE (.var 0 .bool) (.var 1 .int) (.var 2 .int)) (.var 3 .int)

/-- Kernel oracle that eliminates everything and emits no rows. -/
def kernelEmptyEx : KernelOracle := fun _ _ _ => ([], [])

/-- Kernel oracle that emits one ordinary surviving row `x0 - 1 ≤ 0`. -/
def kernelRowEx : KernelOracle := fun _ _ _ => ([⟨[⟨0, 1⟩], -1, .t_le, 0, 0⟩], [])

/-- Soundness contract of one term-linearizer step `acc ⟶ res` on term `t`
with multiplier `mul`: the tids invariant is preserved, the MBO variable
block only grows, no constraint is submitted, tids bindings and accumulator
keys are preserved, and - when every accumulator key evaluates to a
numeral - the semantic account `tsVal ts + c` grows by exactly `mul`
times the model value of `t`. -/
abbrev LinConc (eval : Expr → Expr) (t : Expr) (mul : ℚ) (acc res : LinRes) :
    Prop :=
  INVtids eval res.st ∧
  (∃ tl, res.st.mbo.values = acc.st.mbo.values ++ tl) ∧
  res.st.mbo.cons = acc.st.mbo.cons ∧
  (∀ x id, alook acc.st.tids x = some id → alook res.st.tids x = some id) ∧
  (∀ y, (alook acc.ts y).isSome → (alook res.ts y).isSome) ∧
  (TsOK eval res.ts → ∃ v, evalQ eval t = some v ∧
    tsVal eval res.ts + res.c = tsVal eval acc.ts + acc.c + mul * v)

/-- `LinConc` for a run of the term linearizer over an argument list: the
semantic account grows by `mul` times the sum of the member values. -/
abbrev LinConcL (eval : Expr → Expr) (l : ExprList) (mul : ℚ)
    (acc res : LinRes) : Prop :=
  INVtids eval res.st ∧
  (∃ tl, res.st.mbo.values = acc.st.mbo.values ++ tl) ∧
  res.st.mbo.cons = acc.st.mbo.cons ∧
  (∀ x id, alook acc.st.tids x = some id → alook res.st.tids x = some id) ∧
  (∀ y, (alook acc.ts y).isSome → (alook res.ts y).isSome) ∧
  (TsOK eval res.ts → ∃ vs, evalsQL eval l = some vs ∧
    tsVal eval res.ts + res.c = tsVal eval acc.ts + acc.c + mul * vs.sum)

/-- Concrete arithmetic reference assignment: variable 0 maps to 1, every
other variable to 2. -/
def sigEx : Nat → ℚ := fun n => if n = 0 then 1 else 2

/-- Concrete Boolean reference assignment (all true). -/
def betaEx : Nat → Bool := fun _ => true

/-- Purely arithmetic model evaluator built from a reference assignment: it
maps every expression to the numeral holding its reference value.  It
satisfies the evaluator coherence contract (the conditional clauses hold
vacuously since it never returns a truth constant). -/
def evalNum (σ : Nat → ℚ) (β : Nat → Bool) (e : Expr) : Expr :=
  .num (evalRefQ σ β e) true

/-- Concrete model evaluator built from the reference assignments. -/
def evalNeqEx : Expr → Expr := evalNum sigEx betaEx

/-- Expected final linearizer state of the concrete negated-equality run
`not (x0 = x1)` under `evalNeqEx`: two MBO variables primed with 2 and 1
(allocation order follows the swapped pair) and one strict constraint
`-x0 + x1 < 0`. -/
def stNeqEx : LinState :=
  ⟨⟨[2, 1], [true, true], [⟨[⟨0, -1⟩, ⟨1, 1⟩], 0, .t_lt, 0⟩], []⟩,
   [(.var 1 .int, 0), (.var 0 .int, 1)]⟩

-- Theorems.

/-- C10: `theory_bv_params::updt_params` assigns only the six fields
m_hi_div0, m_bv_reflect, m_bv_enable_int2bv2int, m_bv_delay,
m_bv_size_reduce and m_bv_solver from the given parameter set; for every
input, the remaining fields m_bv_mode, m_bv_lazy_le, m_bv_cc and
m_bv_blast_max_size are left unchanged. -/
theorem updt_params_frame (s : theory_bv_params) (p : params_ref) :
    (s.updt_params p).m_bv_mode = s.m_bv_mode ∧
    (s.updt_params p).m_bv_lazy_le = s.m_bv_lazy_le ∧
    (s.updt_params p).m_bv_cc = s.m_bv_cc ∧
    (s.updt_params p).m_bv_blast_max_size = s.m_bv_blast_max_size ∧
    (s.updt_params p).m_hi_div0 = p.hi_div0 ∧
    (s.updt_params p).m_bv_reflect = p.bv_reflect ∧
    (s.updt_params p).m_bv_enable_int2bv2int = p.bv_enable_int2bv ∧
    (s.updt_params p).m_bv_delay = p.bv_delay ∧
    (s.updt_params p).m_bv_size_reduce = p.bv_size_reduce ∧
    (s.updt_params p).m_bv_solver = p.bv_solver :=
  ⟨rfl, rfl, rfl, rfl, rfl, rfl, rfl, rfl, rfl, rfl⟩

/-- C4 counterexample: with a finite optimum approached from below
(value `5 - ε`) and the objective evaluating to 3 in the updated model, the
returned non-strict bound `ge` is `t ≥ 3` and not `t ≥ value` = `t ≥ 5` as
the claim states. -/
theorem maximize_ge_counterexample :
    (maximize_bounds (fun _ => Expr.num 3 false) (.var 0 .real) ⟨0, 5, -1⟩).1
        = .geE (.var 0 .real) (.num 3 false) ∧
    (maximize_bounds (fun _ => Expr.num 3 false) (.var 0 .real) ⟨0, 5, -1⟩).1
        ≠ .geE (.var 0 .real) (.num 5 false) := by
  constructor
  · decide
  · decide

/-- C4 amended: `maximize` returns `gt` exactly as the claim states (false
when the value is infinite, `t ≥ value` when the optimum is approached from
below by an infinitesimal, `t > value` otherwise); `ge` is `t ≥ value` only
in the last case, while in the infinite and open-supremum cases it is
`t ≥ eval t`, the objective evaluated in the updated model. -/
theorem maximize_bounds_spec (eval : Expr → Expr) (t : Expr) (v : InfEps) :
    ((¬ v.is_finite = true) →
      maximize_bounds eval t v = (.geE t (eval t), .falseE)) ∧
    (v.is_finite = true → v.eps < 0 →
      maximize_bounds eval t v = (.geE t (eval t), .geE t (.num v.r false))) ∧
    (v.is_finite = true → ¬ v.eps < 0 →
      maximize_bounds eval t v
        = (.geE t (.num v.r false), .gtE t (.num v.r false))) := by
  refine ⟨fun h1 => ?_, fun h1 h2 => ?_, fun h1 h2 => ?_⟩
  · simp [maximize_bounds, h1]
  · simp [maximize_bounds, h1, h2]
  · simp [maximize_bounds, h1, h2]

/-- C4 amended, witness at a concrete open-supremum instance. -/
theorem maximize_bounds_spec_witness :
    maximize_bounds (fun _ => Expr.num 3 false) (.var 0 .real) ⟨0, 5, -1⟩
      = (.geE (.var 0 .real) (.num 3 false),
         .geE (.var 0 .real) (.num 5 false)) :=
  (maximize_bounds_spec (fun _ => Expr.num 3 false) (.var 0 .real)
    ⟨0, 5, -1⟩).2.1 (by decide) (by decide)

/-- C8: when no input variable is arithmetic-typed, project returns true
immediately with both lists unchanged; the result does not depend on the
model evaluator or on the kernel oracle, so no MBO work happens. -/
theorem project_no_arith (eval : Expr → Expr) (kernel : KernelOracle)
    (cp : Bool) (vars fmls : List Expr) (cd : Bool)
    (h : ∀ v ∈ vars, is_arith v = false) :
    project eval kernel cp vars fmls cd = .ok (true, vars, fmls, []) := by
  have hany : vars.any is_arith = false := by
    rw [List.any_eq_false]
    intro v hv
    simp [h v hv]
  unfold project
  simp [hany]

/-- C8 witness: a Boolean variable and a Boolean literal pass through
untouched. -/
theorem project_no_arith_witness :
    project (fun _ => Expr.trueE) (fun _ _ _ => ([], [])) true
      [Expr.var 0 .bool] [Expr.var 1 .bool] false
      = .ok (true, [Expr.var 0 .bool], [Expr.var 1 .bool], []) :=
  project_no_arith _ _ _ _ _ _ (by decide)

/-- Helper: the Boolean component of a successful project run is always
true (the false returns of the source arise only from cancellation and the
apply-projection mode, neither of which is active here). -/
theorem project_ok_first (eval : Expr → Expr) (kernel : KernelOracle)
    (cp : Bool) (vars fmls : List Expr) (cd : Bool) {b : Bool}
    {vs fs : List Expr} {ds : List (Expr × Expr)}
    (h : project eval kernel cp vars fmls cd = .ok (b, vs, fs, ds)) :
    b = true := by
  unfold project at h
  split at h
  · cases h; rfl
  · split at h
    · cases h
    · split at h
      · cases h
      · cases h; rfl

/-- C7: project1 succeeds exactly when the underlying singleton projection
(with definition computation disabled and the purity check at its default)
succeeds with the singleton variable list coming back empty; and it returns
false exactly when the projection succeeds but the variable is retained. -/
theorem project1_spec (eval : Expr → Expr) (kernel : KernelOracle) (v : Expr)
    (lits : List Expr) (fs : List Expr) :
    (project1 eval kernel v lits = .ok (true, fs) ↔
      ∃ ds, project eval kernel true [v] lits false = .ok (true, [], fs, ds)) ∧
    (project1 eval kernel v lits = .ok (false, fs) ↔
      ∃ vs ds, project eval kernel true [v] lits false
          = .ok (true, vs, fs, ds) ∧ vs ≠ []) := by
  unfold project1
  cases hp : project eval kernel true [v] lits false with
  | error e =>
    constructor
    · constructor
      · intro h; cases h
      · rintro ⟨ds, hds⟩; cases hds
    · constructor
      · intro h; cases h
      · rintro ⟨vs, ds, hds, _⟩; cases hds
  | ok r =>
    obtain ⟨b, vs, fs0, ds⟩ := r
    have hb : b = true := project_ok_first _ _ _ _ _ _ hp
    subst hb
    constructor
    · constructor
      · intro h
        simp only [Except.ok.injEq, Prod.mk.injEq, Bool.true_and] at h
        obtain ⟨h1, h2⟩ := h
        exact ⟨ds, by simp [List.isEmpty_iff.mp h1, h2]⟩
      · rintro ⟨ds0, hds⟩
        simp only [Except.ok.injEq, Prod.mk.injEq] at hds
        obtain ⟨-, h2, h3, -⟩ := hds
        simp [h2, h3]
    · constructor
      · intro h
        simp only [Except.ok.injEq, Prod.mk.injEq, Bool.true_and] at h
        obtain ⟨h1, h2⟩ := h
        refine ⟨vs, ds, by simp [h2], ?_⟩
        intro hvs
        rw [hvs] at h1
        cases h1
      · rintro ⟨vs0, ds0, hds, hne⟩
        simp only [Except.ok.injEq, Prod.mk.injEq] at hds
        obtain ⟨-, h2, h3, -⟩ := hds
        subst h2
        subst h3
        simp [List.isEmpty_iff, hne]

/-- Helper: lookup after insert-or-overwrite. -/
theorem alook_aupd {α β : Type} [DecidableEq α] (l : List (α × β)) (a : α)
    (b : β) (x : α) :
    alook (aupd l a b) x = if a = x then some b else alook l x := by
  induction l with
  | nil => simp [aupd, alook]
  | cons p rest ih =>
    simp only [aupd]
    by_cases h1 : p.1 = a
    · subst h1
      simp only [alook, if_pos rfl]
      by_cases h2 : p.1 = x <;> simp_all [alook]
    · simp only [if_neg h1, alook, ih]
      by_cases h2 : p.1 = x <;> by_cases h3 : a = x <;> simp_all

/-- Helper: a found binding is a member. -/
theorem mem_of_alook {α β : Type} [DecidableEq α] {l : List (α × β)} {x : α}
    {b : β} (h : alook l x = some b) : (x, b) ∈ l := by
  induction l with
  | nil => cases h
  | cons p rest ih =>
    obtain ⟨pa, pb⟩ := p
    simp only [alook] at h
    split at h
    · cases h
      rename_i heq
      have hx : pa = x := heq
      subst hx
      exact List.mem_cons_self _ _
    · exact List.mem_cons_of_mem _ (ih h)

/-- Helper: a member key is found by lookup. -/
theorem alook_isSome_of_mem {α β : Type} [DecidableEq α] {l : List (α × β)}
    {x : α} {b : β} (h : (x, b) ∈ l) : (alook l x).isSome := by
  induction l with
  | nil => cases h
  | cons p rest ih =>
    simp only [alook]
    split
    · rfl
    · rename_i hne
      cases h with
      | head => exact absurd rfl hne
      | tail _ h2 => exact ih h2

/-- Helper: extract_coefficients only extends tids, preserving existing
bindings. -/
theorem extract_tids_mono (eval : Expr → Expr) (ts : List (Expr × ℚ))
    (st : LinState) (cs : List MVar) (st' : LinState)
    (h : extract_coefficients eval ts st = .ok (cs, st')) :
    ∀ x id, alook st.tids x = some id → alook st'.tids x = some id := by
  induction ts generalizing st cs with
  | nil =>
    cases h
    intro x id hx
    exact hx
  | cons p rest ih =>
    obtain ⟨v, q⟩ := p
    simp only [extract_coefficients] at h
    cases hl : alook st.tids v with
    | some id0 =>
      rw [hl] at h
      simp only at h
      cases hrec : extract_coefficients eval rest st with
      | error e => rw [hrec] at h; cases h
      | ok r =>
        obtain ⟨cs1, st1⟩ := r
        rw [hrec] at h
        simp only at h
        cases h
        exact ih _ _ hrec
    | none =>
      rw [hl] at h
      cases hv : evalNumQ (eval v) with
      | none => rw [hv] at h; cases h
      | some r =>
        rw [hv] at h
        simp only at h
        cases hrec : extract_coefficients eval rest
            ⟨(st.mbo.add_var r (isInt v)).2, aupd st.tids v (st.mbo.add_var r (isInt v)).1⟩ with
        | error e => rw [hrec] at h; cases h
        | ok r2 =>
          obtain ⟨cs1, st1⟩ := r2
          rw [hrec] at h
          simp only at h
          cases h
          intro x id hx
          refine ih _ _ hrec x id ?_
          simp only [alook_aupd]
          split
          · rename_i hvx
            rw [← hvx] at hx
            rw [hl] at hx
            cases hx
          · exact hx

/-- C9: coefficient extraction submits no zero coefficient: every pair in
the produced coefficient vector has a nonzero rational, and every
accumulator entry (zero-coefficient ones included) ends up with an MBO
variable in tids. -/
theorem extract_coefficients_nonzero (eval : Expr → Expr)
    (ts : List (Expr × ℚ)) (st : LinState) (cs : List MVar) (st' : LinState)
    (h : extract_coefficients eval ts st = .ok (cs, st')) :
    (∀ p ∈ cs, p.coeff ≠ 0) ∧ (∀ p ∈ ts, (alook st'.tids p.1).isSome) := by
  induction ts generalizing st cs with
  | nil =>
    cases h
    refine ⟨?_, ?_⟩
    · intro p hp
      cases hp
    · intro p hp
      cases hp
  | cons p rest ih =>
    obtain ⟨v, q⟩ := p
    simp only [extract_coefficients] at h
    cases hl : alook st.tids v with
    | some id0 =>
      rw [hl] at h
      simp only at h
      cases hrec : extract_coefficients eval rest st with
      | error e => rw [hrec] at h; cases h
      | ok r =>
        obtain ⟨cs1, st1⟩ := r
        rw [hrec] at h
        simp only at h
        cases h
        obtain ⟨ih1, ih2⟩ := ih st _ hrec
        constructor
        · intro p hp
          by_cases hq : q = 0
          · rw [if_pos hq] at hp
            exact ih1 p hp
          · rw [if_neg hq] at hp
            cases hp with
            | head => exact hq
            | tail _ hp2 => exact ih1 p hp2
        · intro p hp
          cases hp with
          | head =>
            have := extract_tids_mono eval rest st _ st' hrec v id0 hl
            simp [this]
          | tail _ hp2 => exact ih2 p hp2
    | none =>
      rw [hl] at h
      cases hv : evalNumQ (eval v) with
      | none => rw [hv] at h; cases h
      | some r =>
        rw [hv] at h
        simp only at h
        cases hrec : extract_coefficients eval rest
            ⟨(st.mbo.add_var r (isInt v)).2, aupd st.tids v (st.mbo.add_var r (isInt v)).1⟩ with
        | error e => rw [hrec] at h; cases h
        | ok r2 =>
          obtain ⟨cs1, st1⟩ := r2
          rw [hrec] at h
          simp only at h
          cases h
          obtain ⟨ih1, ih2⟩ := ih _ _ hrec
          constructor
          · intro p hp
            by_cases hq : q = 0
            · rw [if_pos hq] at hp
              exact ih1 p hp
            · rw [if_neg hq] at hp
              cases hp with
              | head => exact hq
              | tail _ hp2 => exact ih1 p hp2
          · intro p hp
            cases hp with
            | head =>
              have := extract_tids_mono eval rest _ _ st' hrec v
                (st.mbo.add_var r (isInt v)).1 (by simp [alook_aupd])
              simp [this]
            | tail _ hp2 => exact ih2 p hp2

/-- C9 witness: an accumulator with a zero and a nonzero entry; the zero
entry is dropped from the coefficients but still allocated in tids. -/
theorem extract_coefficients_nonzero_witness :
    (∀ p ∈ ([⟨1, (2 : ℚ)⟩] : List MVar), p.coeff ≠ 0) ∧
    (∀ p ∈ [(Expr.var 0 .int, (0 : ℚ)), (Expr.var 1 .int, (2 : ℚ))],
      (alook (LinState.mk ⟨[5, 7], [true, true], [], []⟩
        [(Expr.var 0 .int, 0), (Expr.var 1 .int, 1)]).tids p.1).isSome) :=
  extract_coefficients_nonzero
    (fun e => match e with
      | .var 0 .int => .num 5 true
      | .var 1 .int => .num 7 true
      | _ => .trueE)
    [(Expr.var 0 .int, 0), (Expr.var 1 .int, 2)]
    ⟨mbo0, []⟩ [⟨1, 2⟩]
    ⟨⟨[5, 7], [true, true], [], []⟩, [(Expr.var 0 .int, 0), (Expr.var 1 .int, 1)]⟩
    (by decide)

/-- C1 counterexample: a negated arithmetic equality whose left side does
not evaluate to a numeral is refused with a recoverable false result (the
literal is kept in the residue by the caller); no exception is raised,
against the claim that every such evaluation failure is fatal. -/
theorem linearize_neq_counterexample :
    linearize (fun _ => Expr.trueE) (.notE (.eqE (.var 0 .int) (.var 1 .int)))
      ⟨mbo0, []⟩ = .ok (false, [], ⟨mbo0, []⟩) := by
  decide

/-- C1 amended: the linearizer aborts with a named exception only when the
guard of an ite term does not evaluate to a truth value (and in the
unreachable mod-divides arm and in coefficient extraction); when a side of
a negated arithmetic equality or an argument of a distinct (positive or
negated) does not evaluate to a numeral, it instead returns false without
touching the state, so the literal is kept in the residue. -/
theorem linearize_eval_failure_semantics :
    (∀ (eval : Expr → Expr) (g a b : Expr) (mul : ℚ) (acc : LinRes),
      alook acc.st.tids (.iteE g a b) = none →
      eval g ≠ .trueE → eval g ≠ .falseE →
      linearize_term eval mul (.iteE g a b) acc
        = .error "mbp evaluation did not produce a truth value") ∧
    (∀ (eval : Expr → Expr) (e1 e2 : Expr) (st : LinState),
      is_arith e1 = true → evalNumQ (eval e1) = none →
      linearize eval (.notE (.eqE e1 e2)) st = .ok (false, [], st)) ∧
    (∀ (eval : Expr → Expr) (e1 e2 : Expr) (st : LinState) (r : ℚ),
      is_arith e1 = true → evalNumQ (eval e1) = some r →
      evalNumQ (eval e2) = none →
      linearize eval (.notE (.eqE e1 e2)) st = .ok (false, [], st)) ∧
    (∀ (eval : Expr → Expr) (a0 : Expr) (rest : ExprList) (st : LinState),
      is_arith a0 = true →
      evalNums eval (ExprList.cons a0 rest).toList = none →
      linearize eval (.distinctE (.cons a0 rest)) st = .ok (false, [], st)) ∧
    (∀ (eval : Expr → Expr) (a0 : Expr) (rest : ExprList) (st : LinState),
      is_arith a0 = true →
      findDup eval (ExprList.cons a0 rest).toList [] = .badEval →
      linearize eval (.notE (.distinctE (.cons a0 rest))) st
        = .ok (false, [], st)) := by
  refine ⟨?_, ?_, ?_, ?_, ?_⟩
  · intro eval g a b mul acc h0 hT hF
    simp [linearize_term, h0, hT, hF]
  · intro eval e1 e2 st harith h1
    simp [linearize, harith, h1]
  · intro eval e1 e2 st r harith h1 h2
    simp [linearize, harith, h1, h2]
  · intro eval a0 rest st harith h1
    simp only [ExprList.toList] at h1
    simp [linearize, ExprList.toList, harith, h1]
  · intro eval a0 rest st harith h1
    simp only [ExprList.toList] at h1
    simp [linearize, ExprList.toList, harith, h1]

/-- C1 amended, witness: concrete instances of all five behaviors. -/
theorem linearize_eval_failure_semantics_witness :
    linearize_term (fun _ => Expr.var 9 .other) 1
      (.iteE (.var 0 .bool) (.var 1 .int) (.var 2 .int)) ⟨0, [], [], ⟨mbo0, []⟩⟩
      = .error "mbp evaluation did not produce a truth value" ∧
    linearize (fun _ => Expr.trueE) (.notE (.eqE (.var 3 .int) (.var 4 .int)))
      ⟨mbo0, []⟩ = .ok (false, [], ⟨mbo0, []⟩) ∧
    linearize (fun e => match e with | .var 3 _ => .num 1 true | _ => .trueE)
      (.notE (.eqE (.var 3 .int) (.var 4 .int))) ⟨mbo0, []⟩
      = .ok (false, [], ⟨mbo0, []⟩) ∧
    linearize (fun _ => Expr.trueE) (.distinctE (.cons (.var 3 .int) .nil))
      ⟨mbo0, []⟩ = .ok (false, [], ⟨mbo0, []⟩) ∧
    linearize (fun _ => Expr.trueE)
      (.notE (.distinctE (.cons (.var 3 .int) .nil))) ⟨mbo0, []⟩
      = .ok (false, [], ⟨mbo0, []⟩) :=
  ⟨linearize_eval_failure_semantics.1 _ _ _ _ _ _ (by decide) (by decide)
      (by decide),
   linearize_eval_failure_semantics.2.1 _ _ _ _ (by decide) (by decide),
   linearize_eval_failure_semantics.2.2.1 _ _ _ _ 1 (by decide) (by decide)
      (by decide),
   linearize_eval_failure_semantics.2.2.2.1 _ _ _ _ (by decide) (by decide),
   linearize_eval_failure_semantics.2.2.2.2 _ _ _ _ (by decide) (by decide)⟩

/-- C6: a surviving row with exactly one variable of negative coefficient
`c` and comparator le, lt or eq is emitted by the reifier as the
sign-normalized literal `(-c)·x ≥ k`, `(-c)·x > k` or `(-c)·x = k` (with
the multiplication omitted when `c = -1`), where `k` is the row constant;
and under every reference model this literal is equivalent to the direct
translation `c·x + k ⟨op⟩ 0` of the row (the equality case assumes the
reified variable is arithmetic-sorted, which holds for every expression
the projection maps to an MBO id). -/
theorem rows2fmls_sign_normalized (dv : List (Nat × Row))
    (i2e : List (Nat × Expr)) (fuel : Nat) (r : Row) (id : Nat) (c : ℚ)
    (hv : r.vars = [⟨id, c⟩]) (hc : c < 0)
    (hty : r.ty = .t_eq ∨ r.ty = .t_le ∨ r.ty = .t_lt)
    (harith : is_arith (id2expr dv i2e fuel id) = true) :
    (rows2fmls dv i2e fuel [r] =
      [(let t0 := id2expr dv i2e fuel id
        let t := if c = -1 then t0 else .mulE (.num (-c) (isInt t0)) t0
        let s := Expr.num r.coeff (isInt t)
        match r.ty with
        | .t_lt => Expr.gtE t s
        | .t_le => Expr.geE t s
        | _ => Expr.eqE t s)]) ∧
    (∀ (σ : Nat → ℚ) (β : Nat → Bool),
      (evalRefB σ β (norm1 dv i2e fuel r) = true ↔
        (match r.ty with
         | .t_le => c * evalRefQ σ β (id2expr dv i2e fuel id) + r.coeff ≤ 0
         | .t_lt => c * evalRefQ σ β (id2expr dv i2e fuel id) + r.coeff < 0
         | _ => c * evalRefQ σ β (id2expr dv i2e fuel id) + r.coeff = 0))) := by
  obtain ⟨rv, k, ty, mm, ridr⟩ := r
  simp only at hv
  subst hv
  constructor
  · rcases hty with hty | hty | hty <;>
      simp only at hty <;> subst hty <;>
        simp [rows2fmls, norm1, hc, List.headD]
  · intro σ β
    have hne : c ≠ 0 := ne_of_lt hc
    have hm : ∀ (q : ℚ) (bb : Bool) (t : Expr),
        is_arith (Expr.mulE (.num q bb) t) = true := by
      intro q bb t
      cases bb <;> simp [is_arith, sortOf]
    rcases hty with hty | hty | hty <;> simp only at hty <;> subst hty
    · by_cases hcm : c = -1
      · subst hcm
        simp [norm1, evalRefB, evalRefQ, harith]
        constructor <;> intro h <;> linarith
      · simp [norm1, evalRefB, evalRefQ, hcm, hm]
        constructor <;> intro h <;> linarith
    · by_cases hcm : c = -1
      · subst hcm
        simp [norm1, evalRefB, evalRefQ]
        try (constructor <;> intro h <;> linarith)
      · simp [norm1, evalRefB, evalRefQ, hcm]
        constructor <;> intro h <;> linarith
    · by_cases hcm : c = -1
      · subst hcm
        simp [norm1, evalRefB, evalRefQ]
        try (constructor <;> intro h <;> linarith)
      · simp [norm1, evalRefB, evalRefQ, hcm]
        constructor <;> intro h <;> linarith

/-- C6 witness: the row `-2·x + 3 ≤ 0` over the variable reified as `x5` is
emitted as `2·x5 ≥ 3`, which at `x5 = 7` holds like the direct
translation. -/
theorem rows2fmls_sign_normalized_witness :
    rows2fmls [] [(0, Expr.var 5 .int)] 1 [⟨[⟨0, -2⟩], 3, .t_le, 0, 0⟩]
      = [.geE (.mulE (.num 2 true) (.var 5 .int)) (.num 3 true)] ∧
    (evalRefB (fun _ => 7) (fun _ => false)
        (norm1 [] [(0, Expr.var 5 .int)] 1 ⟨[⟨0, -2⟩], 3, .t_le, 0, 0⟩) = true ↔
      (-2 : ℚ) * evalRefQ (fun _ => 7) (fun _ => false)
          (id2expr [] [(0, Expr.var 5 .int)] 1 0) + 3 ≤ 0) := by
  have h := rows2fmls_sign_normalized [] [(0, Expr.var 5 .int)] 1
    ⟨[⟨0, -2⟩], 3, .t_le, 0, 0⟩ 0 (-2) rfl (by norm_num)
    (Or.inr (Or.inl rfl)) (by decide)
  exact ⟨by simpa using h.1, h.2 (fun _ => 7) (fun _ => false)⟩

/-- Helper: every expression has positive size. -/
theorem one_le_sizeE (e : Expr) : 1 ≤ sizeE e := by
  cases e <;> simp [sizeE] <;> omega

/-- Helper: size-bounded equivalence of the literal source dispatch chain
(dead arm included) and the dispatcher without the dead arm. -/
theorem chain_eq_bounded : ∀ n : Nat,
    (∀ t, sizeE t ≤ n → ∀ (eval : Expr → Expr) (mul : ℚ) (acc : LinRes),
      linearize_term_chain eval mul t acc = linearize_term eval mul t acc) ∧
    (∀ l, sizeL l ≤ n → ∀ (eval : Expr → Expr) (mul : ℚ) (acc : LinRes),
      chain_list eval mul l acc = linearize_term_list eval mul l acc) := by
  intro n
  induction n with
  | zero =>
    constructor
    · intro t ht
      have := one_le_sizeE t
      omega
    · intro l hl eval mul acc
      cases l with
      | nil => simp [chain_list, linearize_term_list]
      | cons e es =>
        have := one_le_sizeE e
        simp [sizeL] at hl
        omega
  | succ n ih =>
    have hE : ∀ t, sizeE t ≤ n + 1 →
        ∀ (eval : Expr → Expr) (mul : ℚ) (acc : LinRes),
        linearize_term_chain eval mul t acc = linearize_term eval mul t acc := by
      intro t ht eval mul acc
      cases t with
      | mulE a b =>
        have hsa : sizeE a ≤ n := by
          simp [sizeE] at ht
          have := one_le_sizeE b
          omega
        have hsb : sizeE b ≤ n := by
          simp [sizeE] at ht
          have := one_le_sizeE a
          omega
        cases hka : is_extended_numeral a with
        | some k =>
          simp [linearize_term_chain, chain_mul, is_mul?, hka,
            linearize_term, ih.1 b hsb]
        | none =>
          cases hkb : is_extended_numeral b with
          | some k =>
            simp [linearize_term_chain, chain_mul, is_mul?, hka, hkb,
              linearize_term, ih.1 a hsa]
          | none =>
            simp [linearize_term_chain, chain_mul, chain_uminus, chain_num,
              chain_add, chain_sub, chain_ite, chain_mod, chain_idiv,
              chain_mod_divides, is_mul?, is_uminus?, is_num?, is_add?,
              is_sub?, is_ite?, is_mod?, is_idiv?, hka, hkb, linearize_term]
      | uminus a =>
        have hsa : sizeE a ≤ n := by
          simp [sizeE] at ht
          omega
        simp [linearize_term_chain, chain_mul, chain_uminus, is_mul?,
          is_uminus?, linearize_term, ih.1 a hsa]
      | addE l =>
        have hsl : sizeL l ≤ n := by
          simp [sizeE] at ht
          omega
        simp [linearize_term_chain, chain_mul, chain_uminus, chain_num,
          chain_add, is_mul?, is_uminus?, is_num?, is_add?, linearize_term,
          ih.2 l hsl]
      | subE a b =>
        have hsa : sizeE a ≤ n := by
          simp [sizeE] at ht
          have := one_le_sizeE b
          omega
        have hsb : sizeE b ≤ n := by
          simp [sizeE] at ht
          have := one_le_sizeE a
          omega
        simp [linearize_term_chain, chain_mul, chain_uminus, chain_num,
          chain_add, chain_sub, is_mul?, is_uminus?, is_num?, is_add?,
          is_sub?, linearize_term, ih.1 a hsa, ih.1 b hsb]
      | iteE g a b =>
        have hsa : sizeE a ≤ n := by
          simp [sizeE] at ht
          have := one_le_sizeE g
          have := one_le_sizeE b
          omega
        have hsb : sizeE b ≤ n := by
          simp [sizeE] at ht
          have := one_le_sizeE g
          have := one_le_sizeE a
          omega
        by_cases hT : eval g = Expr.trueE
        · simp [linearize_term_chain, chain_mul, chain_uminus, chain_num,
            chain_add, chain_sub, chain_ite, is_mul?, is_uminus?, is_num?,
            is_add?, is_sub?, is_ite?, hT, linearize_term, ih.1 a hsa]
        · by_cases hF : eval g = Expr.falseE
          · simp [linearize_term_chain, chain_mul, chain_uminus, chain_num,
              chain_add, chain_sub, chain_ite, is_mul?, is_uminus?, is_num?,
              is_add?, is_sub?, is_ite?, hT, hF, linearize_term, ih.1 b hsb]
          · simp [linearize_term_chain, chain_mul, chain_uminus, chain_num,
              chain_add, chain_sub, chain_ite, is_mul?, is_uminus?, is_num?,
              is_add?, is_sub?, is_ite?, hT, hF, linearize_term]
      | modE a b =>
        have hsa : sizeE a ≤ n := by
          simp [sizeE] at ht
          have := one_le_sizeE b
          omega
        cases hk : is_extended_numeral b with
        | none =>
          simp [linearize_term_chain, chain_mul, chain_uminus, chain_num,
            chain_add, chain_sub, chain_ite, chain_mod, chain_idiv,
            chain_mod_divides, is_mul?, is_uminus?, is_num?, is_add?,
            is_sub?, is_ite?, is_mod?, is_idiv?, hk, linearize_term]
        | some k =>
          by_cases hk0 : 0 < k
          · simp [linearize_term_chain, chain_mul, chain_uminus, chain_num,
              chain_add, chain_sub, chain_ite, chain_mod, is_mul?,
              is_uminus?, is_num?, is_add?, is_sub?, is_ite?, is_mod?, hk,
              hk0, linearize_term, ih.1 a hsa]
          · simp [linearize_term_chain, chain_mul, chain_uminus, chain_num,
              chain_add, chain_sub, chain_ite, chain_mod, chain_idiv,
              chain_mod_divides, is_mul?, is_uminus?, is_num?, is_add?,
              is_sub?, is_ite?, is_mod?, is_idiv?, hk, hk0, linearize_term]
      | idivE a b =>
        have hsa : sizeE a ≤ n := by
          simp [sizeE] at ht
          have := one_le_sizeE b
          omega
        cases hk : is_extended_numeral b with
        | none =>
          simp [linearize_term_chain, chain_mul, chain_uminus, chain_num,
            chain_add, chain_sub, chain_ite, chain_mod, chain_idiv,
            chain_mod_divides, is_mul?, is_uminus?, is_num?, is_add?,
            is_sub?, is_ite?, is_mod?, is_idiv?, hk, linearize_term]
        | some k =>
          by_cases hk0 : 0 < k
          · simp [linearize_term_chain, chain_mul, chain_uminus, chain_num,
              chain_add, chain_sub, chain_ite, chain_mod, chain_idiv,
              is_mul?, is_uminus?, is_num?, is_add?, is_sub?, is_ite?,
              is_mod?, is_idiv?, hk, hk0, linearize_term, ih.1 a hsa]
          · simp [linearize_term_chain, chain_mul, chain_uminus, chain_num,
              chain_add, chain_sub, chain_ite, chain_mod, chain_idiv,
              chain_mod_divides, is_mul?, is_uminus?, is_num?, is_add?,
              is_sub?, is_ite?, is_mod?, is_idiv?, hk, hk0, linearize_term]
      | _ =>
        simp [linearize_term_chain, chain_mul, chain_uminus, chain_num,
          chain_add, chain_sub, chain_ite, chain_mod, chain_idiv,
          chain_mod_divides, is_mul?, is_uminus?, is_num?, is_add?, is_sub?,
          is_ite?, is_mod?, is_idiv?, linearize_term]
    refine ⟨hE, ?_⟩
    intro l hl eval mul acc
    cases l with
    | nil => simp [chain_list, linearize_term_list]
    | cons e es =>
      have hse : sizeE e ≤ n + 1 := by
        simp [sizeL] at hl
        omega
      have hses : sizeL es ≤ n := by
        simp [sizeL] at hl
        have := one_le_sizeE e
        omega
      simp [chain_list, linearize_term_list, hE e hse, ih.2 es hses]

/-- C3: the second mod-by-positive-numeral arm of the term dispatcher (the
add_divides arm, mbp_arith.cpp:261-276) is dead code: the faithful source
dispatch chain with that arm present computes the same function, on every
input, as the dispatcher with the arm removed — whenever the guard of that
arm holds, the syntactically identical guard of the first mod arm
(mbp_arith.cpp:248) has already fired. -/
theorem chain_divides_arm_dead (eval : Expr → Expr) (mul : ℚ) (t : Expr)
    (acc : LinRes) :
    linearize_term_chain eval mul t acc = linearize_term eval mul t acc :=
  (chain_eq_bounded (sizeE t)).1 t le_rfl eval mul acc

/-- Helper: rows2fmls emits exactly one literal per row that has a variable
and is not a mod/div pseudo-row, in emission order. -/
theorem rows2fmls_eq (dv : List (Nat × Row)) (i2e : List (Nat × Expr))
    (fuel : Nat) (rows : List Row) :
    rows2fmls dv i2e fuel rows
      = (rows.filter (fun r => emitsRow r)).map (reifyRow dv i2e fuel) := by
  induction rows with
  | nil => simp [rows2fmls]
  | cons r rest ih =>
    by_cases h1 : r.vars.isEmpty
    · have he : emitsRow r = false := by
        simp [emitsRow, List.isEmpty_iff.mp h1]
      simp [rows2fmls, h1, he, ih]
    · by_cases h2 : r.ty = .t_mod
      · have he : emitsRow r = false := by simp [emitsRow, h2]
        simp [rows2fmls, h1, h2, he, ih]
      · by_cases h3 : r.ty = .t_div
        · have he : emitsRow r = false := by simp [emitsRow, h3]
          simp [rows2fmls, h1, h2, h3, he, ih]
        · have he : emitsRow r = true := by
            have hv : ¬ r.vars = [] := by simpa [List.isEmpty_iff] using h1
            simp [emitsRow, h2, h3, hv]
          by_cases h4 : r.vars.length = 1 ∧
              (r.vars.headD ⟨0, 0⟩).coeff < 0 ∧
              (r.ty = .t_eq ∨ r.ty = .t_le ∨ r.ty = .t_lt)
          · rw [List.filter_cons_of_pos (by simp [he]),
              List.map_cons]
            rw [show reifyRow dv i2e fuel r = norm1 dv i2e fuel r from
              if_pos h4]
            rw [← ih]
            simp only [rows2fmls]
            rw [if_neg (by simp [h1]), if_neg h2, if_neg h3, if_pos h4]
          · rw [List.filter_cons_of_pos (by simp [he]),
              List.map_cons]
            rw [show reifyRow dv i2e fuel r = rowFml dv i2e fuel r from
              if_neg h4]
            rw [← ih]
            simp only [rows2fmls]
            rw [if_neg (by simp [h1]), if_neg h2, if_neg h3, if_neg h4]

/-- Helper: the kept accumulator of the linearization loop is a prefix of
its result. -/
theorem projectLoop_kept_prefix (eval : Expr → Expr) :
    ∀ (fuel : Nat) (ws kept : List Expr) (st : LinState) (res : List Expr)
      (stF : LinState),
      projectLoop eval fuel ws kept st = .ok (res, stF) →
      ∃ extras, res = kept ++ extras := by
  intro fuel
  induction fuel with
  | zero =>
    intro ws kept st res stF h
    cases ws with
    | nil =>
      cases h
      exact ⟨[], by simp⟩
    | cons f rest => cases h
  | succ n ih =>
    intro ws kept st res stF h
    cases ws with
    | nil =>
      cases h
      exact ⟨[], by simp⟩
    | cons f rest =>
      simp only [projectLoop] at h
      cases hlin : linearize eval f st with
      | error e => rw [hlin] at h; cases h
      | ok r =>
        obtain ⟨b, delta, st1⟩ := r
        rw [hlin] at h
        simp only at h
        obtain ⟨e1, he1⟩ := ih _ _ _ _ _ h
        cases b with
        | true =>
          simp only [if_pos rfl] at he1
          exact ⟨e1, he1⟩
        | false =>
          simp only [Bool.false_eq_true, if_neg] at he1
          exact ⟨[f] ++ e1, by simp [he1]⟩

/-- Helper: processing a worklist prefix splits into one pass over the
prefix (collecting success flags and appended side formulas) followed by
the loop on the remaining worklist and the appended formulas; the literals
of the prefix that were not linearized are kept first, in their original
relative order. -/
theorem projectLoop_split (eval : Expr → Expr) :
    ∀ (xs tail : List Expr) (fuel : Nat) (kept : List Expr) (st : LinState)
      (res : List Expr) (stF : LinState),
      projectLoop eval fuel (xs ++ tail) kept st = .ok (res, stF) →
      ∃ bs Δ st1,
        pass1 eval xs st = .ok (bs, Δ, st1) ∧
        projectLoop eval (fuel - xs.length) (tail ++ Δ)
          (kept ++ maskKeep xs bs) st1 = .ok (res, stF) := by
  intro xs
  induction xs with
  | nil =>
    intro tail fuel kept st res stF h
    refine ⟨[], [], st, rfl, ?_⟩
    simpa [maskKeep] using h
  | cons f rest ih =>
    intro tail fuel kept st res stF h
    cases fuel with
    | zero => cases h
    | succ n =>
      simp only [List.cons_append, projectLoop] at h
      cases hlin : linearize eval f st with
      | error e => rw [hlin] at h; cases h
      | ok r =>
        obtain ⟨b, delta, st1'⟩ := r
        rw [hlin] at h
        simp only [List.append_eq] at h
        rw [List.append_assoc] at h
        obtain ⟨bs, Δ, st2, hpass, hcont⟩ :=
          ih (tail ++ delta) n _ st1' res stF h
        refine ⟨b :: bs, delta ++ Δ, st2, ?_, ?_⟩
        · simp only [pass1, hlin, hpass]
        · have harr : (tail ++ delta) ++ Δ = tail ++ (delta ++ Δ) :=
            List.append_assoc _ _ _
          rw [harr] at hcont
          have hk : (if b = true then kept else kept ++ [f]) ++ maskKeep rest bs
              = kept ++ maskKeep (f :: rest) (b :: bs) := by
            cases b with
            | true => simp [maskKeep]
            | false => simp [maskKeep]
          rw [hk] at hcont
          simpa using hcont

/-- C5 counterexample: an input literal with a conditional is linearized
successfully (the loop keeps nothing from the inputs), yet the output
residue is the nonempty list holding the injected guard literal, which is
not an input literal; with the kernel emitting no rows, the claim as stated
predicts an empty output. -/
theorem project_claim5_counterexample :
    project evalGuardEx kernelEmptyEx true [.var 1 .int] [litGuardEx] false
      = .ok (true, [], [.var 0 .bool], []) ∧
    linearize evalGuardEx litGuardEx ⟨mbo0, []⟩
      = .ok (true, [.var 0 .bool],
          ⟨⟨[1, 0], [true, true], [⟨[⟨0, 1⟩, ⟨1, -1⟩], 0, .t_le, 0⟩], []⟩,
           [(.var 1 .int, 0), (.var 3 .int, 1)]⟩) ∧
    (Expr.var 0 .bool) ∉ [litGuardEx] := by
  refine ⟨by decide, by decide, by decide⟩

/-- C5 amended: after a successful projection with at least one arithmetic
variable, the output literal list is exactly (a) the literals of the
processed worklist that could not be linearized, in processing order — the
non-linearizable input literals come first, verbatim, in their original
relative order, followed by the non-linearizable side formulas appended
during linearization — then (b) one reified literal for each surviving row
that has at least one variable and is not of kind mod/div, in the kernel
emission order; mod/div rows (and variable-free rows) are never reified. -/
theorem project_output_decomposition (eval : Expr → Expr)
    (kernel : KernelOracle) (cp : Bool) (vars fmls : List Expr)
    (varsOut out : List Expr) (ds : List (Expr × Expr))
    (hA : vars.any is_arith = true)
    (h : project eval kernel cp vars fmls false = .ok (true, varsOut, out, ds)) :
    ∃ bs Δ st1 extras stF st2 rows,
      pass1 eval fmls ⟨mbo0, []⟩ = .ok (bs, Δ, st1) ∧
      projectLoop eval (weightL fmls - fmls.length) Δ (maskKeep fmls bs) st1
        = .ok (maskKeep fmls bs ++ extras, stF) ∧
      register_vars eval vars stF = .ok st2 ∧
      rows = (kernel st2.mbo
        (split_vars
          (purity_roots cp vars (maskKeep fmls bs ++ extras) st2.tids)
          st2.tids vars).2 false).1 ∧
      out = (maskKeep fmls bs ++ extras)
        ++ (rows.filter (fun r => emitsRow r)).map
             (reifyRow (mk_def_vars rows) (mk_index2expr st2.tids)
               ((mk_def_vars rows).length + 1)) := by
  unfold project at h
  rw [if_neg (by simp [hA])] at h
  cases hloop : projectLoop eval (weightL fmls) fmls [] ⟨mbo0, []⟩ with
  | error e => rw [hloop] at h; cases h
  | ok r =>
    obtain ⟨kept, stF⟩ := r
    rw [hloop] at h
    simp only at h
    cases hreg : register_vars eval vars stF with
    | error e => rw [hreg] at h; cases h
    | ok st2 =>
      rw [hreg] at h
      simp only at h
      have hloop2 : projectLoop eval (weightL fmls) (fmls ++ []) []
          ⟨mbo0, []⟩ = .ok (kept, stF) := by
        rw [List.append_nil]
        exact hloop
      obtain ⟨bs, Δ, st1, hpass, hcont⟩ :=
        projectLoop_split eval fmls [] (weightL fmls) [] ⟨mbo0, []⟩ kept stF
          hloop2
      simp only [List.nil_append] at hcont
      obtain ⟨extras, hkept⟩ :=
        projectLoop_kept_prefix eval _ _ _ _ _ _ hcont
      subst hkept
      refine ⟨bs, Δ, st1, extras, stF, st2, _, hpass, hcont, hreg, rfl, ?_⟩
      rw [Except.ok.injEq, Prod.mk.injEq, Prod.mk.injEq, Prod.mk.injEq] at h
      obtain ⟨-, -, hout, -⟩ := h
      rw [← hout, rows2fmls_eq]

/-- C5 amended, witness: a concrete run with one linearized input, one kept
side literal and one ordinary kernel row, decomposed by the theorem. -/
theorem project_output_decomposition_witness :
    ∃ bs Δ st1 extras stF st2 rows,
      pass1 evalGuardEx [litGuardEx] ⟨mbo0, []⟩ = .ok (bs, Δ, st1) ∧
      projectLoop evalGuardEx (weightL [litGuardEx] - [litGuardEx].length) Δ
        (maskKeep [litGuardEx] bs) st1
        = .ok (maskKeep [litGuardEx] bs ++ extras, stF) ∧
      register_vars evalGuardEx [.var 1 .int] stF = .ok st2 ∧
      rows = (kernelRowEx st2.mbo
        (split_vars
          (purity_roots true [.var 1 .int]
            (maskKeep [litGuardEx] bs ++ extras) st2.tids)
          st2.tids [.var 1 .int]).2 false).1 ∧
      ([Expr.var 0 .bool, .leE (.var 1 .int) (.num 1 true)] : List Expr)
        = (maskKeep [litGuardEx] bs ++ extras)
          ++ (rows.filter (fun r => emitsRow r)).map
               (reifyRow (mk_def_vars rows) (mk_index2expr st2.tids)
                 ((mk_def_vars rows).length + 1)) :=
  project_output_decomposition evalGuardEx kernelRowEx true [.var 1 .int]
    [litGuardEx] [] [.var 0 .bool, .leE (.var 1 .int) (.num 1 true)] []
    (by decide) (by decide)

/-- Helper: a member of an updated association list is the new binding or a
member of the original list. -/
theorem mem_aupd {α β : Type} [DecidableEq α] {l : List (α × β)} {a : α}
    {b : β} {p : α × β} (h : p ∈ aupd l a b) :
    p = (a, b) ∨ p ∈ l := by
  induction l with
  | nil =>
    simp only [aupd, List.mem_singleton] at h
    exact Or.inl h
  | cons q rest ih =>
    simp only [aupd] at h
    split at h
    · cases h with
      | head => exact Or.inl rfl
      | tail _ h2 => exact Or.inr (List.mem_cons_of_mem _ h2)
    · cases h with
      | head => exact Or.inr (List.mem_cons_self _ _)
      | tail _ h2 =>
        rcases ih h2 with h3 | h3
        · exact Or.inl h3
        · exact Or.inr (List.mem_cons_of_mem _ h3)

/-- Helper: updating an absent key appends the binding. -/
theorem aupd_not_found {α β : Type} [DecidableEq α] {l : List (α × β)}
    {a : α} (b : β) (h : alook l a = none) : aupd l a b = l ++ [(a, b)] := by
  induction l with
  | nil => rfl
  | cons q rest ih =>
    simp only [alook] at h
    simp only [aupd]
    split
    · rename_i hq
      rw [if_pos hq] at h
      cases h
    · rename_i hq
      rw [if_neg hq] at h
      rw [ih h]
      rfl

/-- Helper: `tsVal` is additive over concatenation. -/
theorem tsVal_append (eval : Expr → Expr) (l1 l2 : List (Expr × ℚ)) :
    tsVal eval (l1 ++ l2) = tsVal eval l1 + tsVal eval l2 := by
  simp [tsVal]

/-- Helper: `tsVal` of a cons cell. -/
theorem tsVal_cons (eval : Expr → Expr) (p : Expr × ℚ)
    (l : List (Expr × ℚ)) :
    tsVal eval (p :: l) = p.2 * ((evalQ eval p.1).getD 0) + tsVal eval l := by
  simp [tsVal]

/-- Helper: `tsVal` after overwriting a present key. -/
theorem tsVal_aupd_found (eval : Expr → Expr) :
    ∀ (ts : List (Expr × ℚ)) (x : Expr) (w u : ℚ), alook ts x = some w →
      tsVal eval (aupd ts x u)
        = tsVal eval ts + (u - w) * ((evalQ eval x).getD 0) := by
  intro ts
  induction ts with
  | nil => intro x w u h; cases h
  | cons p rest ih =>
    intro x w u h
    simp only [alook] at h
    by_cases hp : p.1 = x
    · rw [if_pos hp] at h
      have hw : p.2 = w := Option.some.inj h
      simp only [aupd, if_pos hp]
      rw [tsVal_cons, tsVal_cons, hp, hw]
      ring
    · rw [if_neg hp] at h
      simp only [aupd, if_neg hp]
      rw [tsVal_cons, tsVal_cons, ih x w u h]
      ring

/-- Helper: `insert_mul` adds `v` times the model value of `x` to the
accumulator value. -/
theorem tsVal_insert_mul (eval : Expr → Expr) (ts : List (Expr × ℚ))
    (x : Expr) (v : ℚ) :
    tsVal eval (insert_mul x v ts)
      = tsVal eval ts + v * ((evalQ eval x).getD 0) := by
  unfold insert_mul
  cases h : alook ts x with
  | some w =>
    rw [tsVal_aupd_found eval ts x w (w + v) h]
    ring
  | none =>
    rw [aupd_not_found v h, tsVal_append]
    simp [tsVal]

/-- Helper: the inserted key is bound after `insert_mul`. -/
theorem alook_insert_mul_self (ts : List (Expr × ℚ)) (x : Expr) (v : ℚ) :
    (alook (insert_mul x v ts) x).isSome := by
  unfold insert_mul
  cases h : alook ts x <;> simp [alook_aupd]

/-- Helper: `insert_mul` preserves all bound keys. -/
theorem alook_insert_mul_mono (ts : List (Expr × ℚ)) (x : Expr) (v : ℚ)
    (y : Expr) (h : (alook ts y).isSome) :
    (alook (insert_mul x v ts) y).isSome := by
  unfold insert_mul
  cases hx : alook ts x <;>
    · rw [alook_aupd]
      split
      · simp
      · exact h

/-- Helper: `TsOK` transfers backwards along key inclusion. -/
theorem TsOK_of_keys (eval : Expr → Expr) (ts ts2 : List (Expr × ℚ))
    (hk : ∀ y, (alook ts y).isSome → (alook ts2 y).isSome)
    (h2 : TsOK eval ts2) : TsOK eval ts := by
  intro p hp
  have h1 : (alook ts p.1).isSome := alook_isSome_of_mem (l := ts) (x := p.1) (b := p.2) (by simpa using hp)
  have h3 : (alook ts2 p.1).isSome := hk p.1 h1
  obtain ⟨b, hb⟩ := Option.isSome_iff_exists.mp h3
  have hm : (p.1, b) ∈ ts2 := mem_of_alook hb
  exact h2 (p.1, b) hm

/-- Helper: an extended numeral evaluates under any coherent evaluator to
its rational value. -/
theorem evalQ_extended (eval : Expr → Expr) (hhom : EvalHom eval) :
    ∀ (n : Nat) (u : Expr) (k : ℚ), sizeE u ≤ n →
      is_extended_numeral u = some k → evalQ eval u = some k := by
  intro n
  induction n with
  | zero =>
    intro u k hs
    have := one_le_sizeE u
    omega
  | succ m ih =>
    intro u k hs hext
    cases u with
    | num q b =>
      simp only [is_extended_numeral] at hext
      rw [← Option.some.inj hext]
      exact hhom.hnum q b
    | uminus e =>
      simp only [is_extended_numeral, Option.map_eq_some'] at hext
      obtain ⟨k0, hk0, hk⟩ := hext
      have hse : sizeE e ≤ m := by
        have : sizeE (.uminus e) = 1 + sizeE e := rfl
        omega
      have := hhom.hneg e k0 (ih e k0 hse hk0)
      rw [← hk]
      exact this
    | var n s => cases hext
    | addE l => cases hext
    | subE a b => cases hext
    | mulE a b => cases hext
    | iteE g a b => cases hext
    | modE a b => cases hext
    | idivE a b => cases hext
    | divE a b => cases hext
    | leE a b => cases hext
    | ltE a b => cases hext
    | geE a b => cases hext
    | gtE a b => cases hext
    | eqE a b => cases hext
    | distinctE l => cases hext
    | notE a => cases hext
    | andE l => cases hext
    | orE l => cases hext
    | trueE => cases hext
    | falseE => cases hext

/-- Helper: `coeffsVal` of a cons cell. -/
theorem coeffsVal_cons (m : Mbo) (v : MVar) (cs : List MVar) :
    coeffsVal m (v :: cs) = v.coeff * mboVal m v.id + coeffsVal m cs := by
  simp [coeffsVal]

/-- Helper: full soundness of coefficient extraction: the tids invariant is
preserved, the MBO variable block only grows, constraints are untouched,
tids bindings are preserved, every accumulator key evaluates to a numeral,
and the produced coefficient vector evaluates (under the final variable
values) to the model value of the accumulator. -/
theorem extract_sound (eval : Expr → Expr) :
    ∀ (ts : List (Expr × ℚ)) (st : LinState) (cs : List MVar)
      (st' : LinState), INVtids eval st →
      extract_coefficients eval ts st = .ok (cs, st') →
      INVtids eval st' ∧
      (∃ tl, st'.mbo.values = st.mbo.values ++ tl) ∧
      st'.mbo.cons = st.mbo.cons ∧
      (∀ x id, alook st.tids x = some id → alook st'.tids x = some id) ∧
      TsOK eval ts ∧
      coeffsVal st'.mbo cs = tsVal eval ts := by
  intro ts
  induction ts with
  | nil =>
    intro st cs st' hinv h
    cases h
    refine ⟨hinv, ⟨[], (List.append_nil _).symm⟩, rfl, fun x id hx => hx,
      ?_, ?_⟩
    · intro p hp; cases hp
    · simp [coeffsVal, tsVal]
  | cons p rest ih =>
    intro st cs st' hinv h
    obtain ⟨v, q⟩ := p
    simp only [extract_coefficients] at h
    cases hl : alook st.tids v with
    | some id0 =>
      rw [hl] at h
      simp only at h
      cases hrec : extract_coefficients eval rest st with
      | error e => rw [hrec] at h; cases h
      | ok r =>
        obtain ⟨cs1, st2⟩ := r
        rw [hrec] at h
        simp only [Except.ok.injEq, Prod.mk.injEq] at h
        obtain ⟨hcs, hst⟩ := h
        subst hcs
        subst hst
        obtain ⟨hI, ⟨tl, hV⟩, hC, hT, hTs, hCV⟩ := ih st cs1 st2 hinv hrec
        have hspec := hinv (v, id0) (mem_of_alook hl)
        have hstab : mboVal st2.mbo id0 = mboVal st.mbo id0 := by
          unfold mboVal
          rw [hV]
          exact List.getD_append _ _ _ _ hspec.1
        have hval : mboVal st.mbo id0 = (evalQ eval v).getD 0 := by
          rw [hspec.2]
          rfl
        refine ⟨hI, ⟨tl, hV⟩, hC, hT, ?_, ?_⟩
        · intro p hp
          rcases List.mem_cons.mp hp with rfl | hp2
          · rw [hspec.2]; rfl
          · exact hTs p hp2
        · by_cases hq : q = 0
          · rw [if_pos hq, hCV, tsVal_cons, hq]
            ring
          · rw [if_neg hq, coeffsVal_cons, tsVal_cons, hCV, hstab, hval]
    | none =>
      rw [hl] at h
      cases hv : evalNumQ (eval v) with
      | none => rw [hv] at h; cases h
      | some r =>
        rw [hv] at h
        simp only at h
        have hinv1 : INVtids eval
            ⟨(st.mbo.add_var r (isInt v)).2,
             aupd st.tids v (st.mbo.add_var r (isInt v)).1⟩ := by
          intro p hp
          rcases mem_aupd hp with rfl | hp2
          · refine ⟨?_, ?_⟩
            · simp [Mbo.add_var]
            · show evalQ eval v = some _
              have : mboVal (st.mbo.add_var r (isInt v)).2
                  (st.mbo.add_var r (isInt v)).1 = r := by
                unfold mboVal Mbo.add_var
                simp only
                rw [List.getD_append_right st.mbo.values [r] 0
                  st.mbo.values.length (le_refl _)]
                simp
              rw [this]
              exact hv
          · obtain ⟨hlt, hev⟩ := hinv p hp2
            refine ⟨?_, ?_⟩
            · simp only [Mbo.add_var, List.length_append, List.length_cons]
              omega
            · rw [hev]
              unfold mboVal Mbo.add_var
              simp only
              rw [List.getD_append _ _ _ _ hlt]
        cases hrec : extract_coefficients eval rest
            ⟨(st.mbo.add_var r (isInt v)).2, aupd st.tids v (st.mbo.add_var r (isInt v)).1⟩ with
        | error e => rw [hrec] at h; cases h
        | ok r2 =>
          obtain ⟨cs1, st2⟩ := r2
          rw [hrec] at h
          simp only [Except.ok.injEq, Prod.mk.injEq] at h
          obtain ⟨hcs, hst⟩ := h
          subst hcs
          subst hst
          obtain ⟨hI, ⟨tl, hV⟩, hC, hT, hTs, hCV⟩ := ih _ cs1 st2 hinv1 hrec
          have hevq : evalQ eval v = some r := hv
          have hlen : (st.mbo.add_var r (isInt v)).1 = st.mbo.values.length := rfl
          have hstab : mboVal st2.mbo (st.mbo.add_var r (isInt v)).1 = r := by
            unfold mboVal
            rw [hV]
            have hlt : (st.mbo.add_var r (isInt v)).1
                < ((st.mbo.add_var r (isInt v)).2).values.length := by
              simp [Mbo.add_var]
            rw [List.getD_append _ _ _ _ hlt]
            unfold Mbo.add_var
            simp only
            rw [List.getD_append_right st.mbo.values [r] 0
              st.mbo.values.length (le_refl _)]
            simp
          refine ⟨hI, ?_, ?_, ?_, ?_, ?_⟩
          · refine ⟨[r] ++ tl, ?_⟩
            rw [hV]
            show ((st.mbo.values ++ [r]) ++ tl) = _
            rw [List.append_assoc]
          · rw [hC]
            rfl
          · intro x id hx
            have hvx : ¬(v = x) := by
              intro he
              rw [he] at hl
              rw [hl] at hx
              cases hx
            refine hT x id ?_
            show alook (aupd st.tids v _) x = some id
            rw [alook_aupd]
            rw [if_neg hvx]
            exact hx
          · intro p hp
            rcases List.mem_cons.mp hp with rfl | hp2
            · rw [hevq]; rfl
            · exact hTs p hp2
          · by_cases hq : q = 0
            · rw [if_pos hq, hCV, tsVal_cons, hq]
              ring
            · rw [if_neg hq, coeffsVal_cons, tsVal_cons, hCV, hstab, hevq]
              rfl

/-- Helper: the step that only records `t` in the accumulator satisfies the
step contract. -/
theorem LinConc_self (eval : Expr → Expr) (t : Expr) (mul : ℚ)
    (acc : LinRes) (hinv : INVtids eval acc.st) :
    LinConc eval t mul acc { acc with ts := insert_mul t mul acc.ts } := by
  refine ⟨hinv, ⟨[], (List.append_nil _).symm⟩, rfl, fun x id h => h, ?_, ?_⟩
  · intro y hy
    exact alook_insert_mul_mono acc.ts t mul y hy
  · intro hts
    have hself : (alook (insert_mul t mul acc.ts) t).isSome :=
      alook_insert_mul_self acc.ts t mul
    obtain ⟨w, hw⟩ := Option.isSome_iff_exists.mp hself
    have hm : (t, w) ∈ insert_mul t mul acc.ts := mem_of_alook hw
    have hv : (evalQ eval t).isSome := hts (t, w) hm
    obtain ⟨v, hv2⟩ := Option.isSome_iff_exists.mp hv
    refine ⟨v, hv2, ?_⟩
    simp only [tsVal_insert_mul, hv2, Option.getD_some]
    ring

/-- Helper: the empty-list run satisfies the list step contract. -/
theorem LinConcL_nil (eval : Expr → Expr) (mul : ℚ) (acc : LinRes)
    (hinv : INVtids eval acc.st) : LinConcL eval .nil mul acc acc := by
  refine ⟨hinv, ⟨[], (List.append_nil _).symm⟩, rfl, fun x id hx => hx,
    fun y hy => hy, fun _ => ⟨[], rfl, ?_⟩⟩
  simp [evalsQL]

/-- Helper: size-bounded soundness of the term linearizer: every successful
run satisfies the step contract `LinConc` (`LinConcL` on argument
lists). -/
theorem lin_term_sound (eval : Expr → Expr) (hhom : EvalHom eval) :
    ∀ n : Nat,
      (∀ t, sizeE t ≤ n → ∀ (mul : ℚ) (acc res : LinRes),
        INVtids eval acc.st →
        linearize_term eval mul t acc = .ok res →
        LinConc eval t mul acc res) ∧
      (∀ l, sizeL l ≤ n → ∀ (mul : ℚ) (acc res : LinRes),
        INVtids eval acc.st →
        linearize_term_list eval mul l acc = .ok res →
        LinConcL eval l mul acc res) := by
  intro n
  induction n with
  | zero =>
    constructor
    · intro t hs
      have := one_le_sizeE t
      omega
    · intro l hs mul acc res hinv h
      cases l with
      | nil =>
        have hh := Except.ok.inj h
        subst hh
        exact LinConcL_nil eval mul acc hinv
      | cons e es =>
        have := one_le_sizeE e
        simp only [sizeL] at hs
        omega
  | succ m ih =>
    obtain ⟨ihT, ihL⟩ := ih
    have hterm : ∀ t, sizeE t ≤ m + 1 → ∀ (mul : ℚ) (acc res : LinRes),
        INVtids eval acc.st →
        linearize_term eval mul t acc = .ok res →
        LinConc eval t mul acc res := by
      intro t hs mul acc res hinv h
      rw [linearize_term.eq_def] at h
      split at h
      · have hh := Except.ok.inj h
        subst hh
        exact LinConc_self eval t mul acc hinv
      · rename_i htid
        split at h
        · -- mulE
          rename_i t1 t2
          split at h
          · rename_i k heq1
            have hsz : sizeE t2 ≤ m := by
              have := one_le_sizeE t1
              simp only [sizeE] at hs
              omega
            obtain ⟨hI, hV, hC, hT, hK, hId⟩ :=
              ihT t2 hsz (mul * k) acc res hinv h
            refine ⟨hI, hV, hC, hT, hK, ?_⟩
            intro hts
            obtain ⟨v2, hv2, hident⟩ := hId hts
            have hk1 : evalQ eval t1 = some k :=
              evalQ_extended eval hhom (sizeE t1) t1 k (le_refl _) heq1
            refine ⟨k * v2, hhom.hmul t1 t2 k v2 hk1 hv2, ?_⟩
            rw [hident]
            ring
          · rename_i k heq1 heq2
            have hsz : sizeE t1 ≤ m := by
              have := one_le_sizeE t2
              simp only [sizeE] at hs
              omega
            obtain ⟨hI, hV, hC, hT, hK, hId⟩ :=
              ihT t1 hsz (mul * k) acc res hinv h
            refine ⟨hI, hV, hC, hT, hK, ?_⟩
            intro hts
            obtain ⟨v1, hv1, hident⟩ := hId hts
            have hk2 : evalQ eval t2 = some k :=
              evalQ_extended eval hhom (sizeE t2) t2 k (le_refl _) heq2
            refine ⟨v1 * k, hhom.hmul t1 t2 v1 k hv1 hk2, ?_⟩
            rw [hident]
            ring
          · have hh := Except.ok.inj h
            subst hh
            exact LinConc_self eval _ mul acc hinv
        · -- uminus
          rename_i t1
          have hsz : sizeE t1 ≤ m := by
            simp only [sizeE] at hs
            omega
          obtain ⟨hI, hV, hC, hT, hK, hId⟩ :=
            ihT t1 hsz (-mul) acc res hinv h
          refine ⟨hI, hV, hC, hT, hK, ?_⟩
          intro hts
          obtain ⟨v1, hv1, hident⟩ := hId hts
          refine ⟨-v1, hhom.hneg t1 v1 hv1, ?_⟩
          rw [hident]
          ring
        · -- num
          rename_i q b
          have hh := Except.ok.inj h
          subst hh
          refine ⟨hinv, ⟨[], (List.append_nil _).symm⟩, rfl,
            fun x id hx => hx, fun y hy => hy, ?_⟩
          intro hts
          refine ⟨q, hhom.hnum q b, ?_⟩
          show tsVal eval acc.ts + (acc.c + mul * q)
            = tsVal eval acc.ts + acc.c + mul * q
          ring
        · -- addE
          rename_i args
          have hsz : sizeL args ≤ m := by
            simp only [sizeE] at hs
            omega
          obtain ⟨hI, hV, hC, hT, hK, hId⟩ :=
            ihL args hsz mul acc res hinv h
          refine ⟨hI, hV, hC, hT, hK, ?_⟩
          intro hts
          obtain ⟨vs, hvs, hident⟩ := hId hts
          exact ⟨vs.sum, hhom.hadd args vs hvs, hident⟩
        · -- subE
          rename_i t1 t2
          split at h
          · rename_i e heq
            cases h
          · rename_i acc1 heq
            have hsz1 : sizeE t1 ≤ m := by
              have := one_le_sizeE t2
              simp only [sizeE] at hs
              omega
            have hsz2 : sizeE t2 ≤ m := by
              have := one_le_sizeE t1
              simp only [sizeE] at hs
              omega
            obtain ⟨AI, ⟨tl1, AV⟩, AC, AT, AK, AId⟩ :=
              ihT t1 hsz1 mul acc acc1 hinv heq
            obtain ⟨BI, ⟨tl2, BV⟩, BC, BT, BK, BId⟩ :=
              ihT t2 hsz2 (-mul) acc1 res AI h
            refine ⟨BI, ⟨tl1 ++ tl2, by rw [BV, AV, List.append_assoc]⟩,
              BC.trans AC, fun x id hx => BT x id (AT x id hx),
              fun y hy => BK y (AK y hy), ?_⟩
            intro hts
            have htsA : TsOK eval acc1.ts := TsOK_of_keys eval _ _ BK hts
            obtain ⟨v1, hv1, idA⟩ := AId htsA
            obtain ⟨v2, hv2, idB⟩ := BId hts
            refine ⟨v1 - v2, hhom.hsub t1 t2 v1 v2 hv1 hv2, ?_⟩
            rw [idB, idA]
            ring
        · -- iteE
          rename_i g t2 t3
          replace h : (if eval g = Expr.trueE then
              match linearize_term eval mul t2 acc with
              | Except.error e => Except.error e
              | Except.ok acc1 =>
                Except.ok (⟨acc1.c, acc1.ts, acc1.out ++ [g], acc1.st⟩ : LinRes)
            else
              if eval g = Expr.falseE then
                linearize_term eval mul t3 ⟨acc.c, acc.ts, acc.out ++ [mk_not g], acc.st⟩
              else
                Except.error "mbp evaluation did not produce a truth value")
              = Except.ok res := h
          split at h
          · rename_i hg
            split at h
            · rename_i e heq
              cases h
            · rename_i acc1 heq
              have hsz : sizeE t2 ≤ m := by
                have h1 := one_le_sizeE g
                have h2 := one_le_sizeE t3
                simp only [sizeE] at hs
                omega
              obtain ⟨AI, AV, AC, AT, AK, AId⟩ :=
                ihT t2 hsz mul acc acc1 hinv heq
              have hh := Except.ok.inj h
              subst hh
              refine ⟨AI, AV, AC, AT, AK, ?_⟩
              intro hts
              obtain ⟨v2, hv2, idA⟩ := AId hts
              refine ⟨v2, ?_, idA⟩
              rw [hhom.hiteT g t2 t3 hg]
              exact hv2
          · rename_i hg1
            split at h
            · rename_i hg2
              have hsz : sizeE t3 ≤ m := by
                have h1 := one_le_sizeE g
                have h2 := one_le_sizeE t2
                simp only [sizeE] at hs
                omega
              obtain ⟨AI, AV, AC, AT, AK, AId⟩ :=
                ihT t3 hsz mul ⟨acc.c, acc.ts, acc.out ++ [mk_not g], acc.st⟩
                  res hinv h
              refine ⟨AI, AV, AC, AT, AK, ?_⟩
              intro hts
              obtain ⟨v3, hv3, idA⟩ := AId hts
              refine ⟨v3, ?_, idA⟩
              rw [hhom.hiteF g t2 t3 hg2]
              exact hv3
            · cases h
        · -- modE
          rename_i t1 t2
          split at h
          · rename_i k heq2
            split at h
            · rename_i hk
              split at h
              · rename_i e heq
                cases h
              · rename_i r0 heq
                split at h
                · rename_i e heqX
                  cases h
                · rename_i coeffs st1 heqX
                  split at h
                  rename_i id mbo1 heqM
                  have hid : id = st1.mbo.values.length :=
                    (congrArg Prod.fst heqM).symm
                  have hval : mbo1.values = st1.mbo.values ++
                      [qmod (coeffsVal st1.mbo coeffs + r0.c) k] :=
                    (congrArg (fun p => Prod.snd p |>.values) heqM).symm
                  have hcons : mbo1.cons = st1.mbo.cons :=
                    (congrArg (fun p => Prod.snd p |>.cons) heqM).symm
                  have hh := Except.ok.inj h
                  subst hh
                  have hsz1 : sizeE t1 ≤ m := by
                    have := one_le_sizeE t2
                    simp only [sizeE] at hs
                    omega
                  obtain ⟨AI, ⟨tl1, AV⟩, AC, AT, AK, AId⟩ :=
                    ihT t1 hsz1 1 ⟨0, [], acc.out, acc.st⟩ r0 hinv heq
                  obtain ⟨EI, ⟨tl2, EV⟩, EC, ET, ETs, ECV⟩ :=
                    extract_sound eval r0.ts r0.st coeffs st1 AI heqX
                  obtain ⟨v1, hv1, hsumA⟩ := AId ETs
                  have hsum : tsVal eval r0.ts + r0.c = v1 := by
                    rw [hsumA]
                    show 0 + 0 + 1 * v1 = v1
                    ring
                  have hk2 : evalQ eval t2 = some k :=
                    evalQ_extended eval hhom (sizeE t2) t2 k (le_refl _) heq2
                  have hmodv : evalQ eval (.modE t1 t2) = some (qmod v1 k) :=
                    hhom.hmod t1 t2 v1 k hv1 hk2
                  have hvm : qmod (coeffsVal st1.mbo coeffs + r0.c) k
                      = qmod v1 k := by
                    rw [ECV, hsum]
                  refine ⟨?_, ?_, ?_, ?_, ?_, ?_⟩
                  · intro p hp
                    rcases mem_aupd hp with rfl | hp2
                    · refine ⟨?_, ?_⟩
                      · show id < mbo1.values.length
                        rw [hval, hid]
                        simp
                      · show evalQ eval (.modE t1 t2)
                          = some (mboVal mbo1 id)
                        unfold mboVal
                        rw [hval, hid]
                        rw [List.getD_append_right st1.mbo.values _ 0
                          st1.mbo.values.length (le_refl _)]
                        simp only [Nat.sub_self, List.getD]
                        rw [hmodv, hvm]
                        rfl
                    · obtain ⟨hlt, hev⟩ := EI p hp2
                      refine ⟨?_, ?_⟩
                      · show p.2 < mbo1.values.length
                        rw [hval]
                        simp only [List.length_append, List.length_cons]
                        omega
                      · rw [hev]
                        show some (mboVal st1.mbo p.2)
                          = some (mboVal mbo1 p.2)
                        unfold mboVal
                        rw [hval, List.getD_append _ _ _ _ hlt]
                  · refine ⟨tl1 ++ (tl2 ++
                      [qmod (coeffsVal st1.mbo coeffs + r0.c) k]), ?_⟩
                    show mbo1.values = _
                    rw [hval, EV]
                    show (r0.st.mbo.values ++ tl2) ++ [_] = _
                    rw [AV]
                    show ((acc.st.mbo.values ++ tl1) ++ tl2) ++ [_] = _
                    rw [List.append_assoc, List.append_assoc]
                  · show mbo1.cons = acc.st.mbo.cons
                    rw [hcons]
                    exact EC.trans AC
                  · intro x id0 hx
                    show alook (aupd st1.tids (Expr.modE t1 t2) _) x
                      = some id0
                    rw [alook_aupd]
                    split
                    · rename_i he
                      rw [← he] at hx
                      rw [hx] at htid
                      simp at htid
                    · exact ET x id0 (AT x id0 hx)
                  · intro y hy
                    exact alook_insert_mul_mono acc.ts (.modE t1 t2) mul y hy
                  · intro hts
                    refine ⟨qmod v1 k, hmodv, ?_⟩
                    show tsVal eval (insert_mul (Expr.modE t1 t2) mul acc.ts)
                      + acc.c = tsVal eval acc.ts + acc.c + mul * qmod v1 k
                    rw [tsVal_insert_mul, hmodv]
                    show tsVal eval acc.ts + mul * qmod v1 k + acc.c = _
                    ring
            · have hh := Except.ok.inj h
              subst hh
              exact LinConc_self eval _ mul acc hinv
          · have hh := Except.ok.inj h
            subst hh
            exact LinConc_self eval _ mul acc hinv
        · -- idivE
          rename_i t1 t2
          split at h
          · rename_i k heq2
            split at h
            · rename_i hk
              split at h
              · rename_i e heq
                cases h
              · rename_i r0 heq
                split at h
                · rename_i e heqX
                  cases h
                · rename_i coeffs st1 heqX
                  split at h
                  rename_i id mbo1 heqM
                  have hid : id = st1.mbo.values.length :=
                    (congrArg Prod.fst heqM).symm
                  have hval : mbo1.values = st1.mbo.values ++
                      [qdiv (coeffsVal st1.mbo coeffs + r0.c) k] :=
                    (congrArg (fun p => Prod.snd p |>.values) heqM).symm
                  have hcons : mbo1.cons = st1.mbo.cons :=
                    (congrArg (fun p => Prod.snd p |>.cons) heqM).symm
                  have hh := Except.ok.inj h
                  subst hh
                  have hsz1 : sizeE t1 ≤ m := by
                    have := one_le_sizeE t2
                    simp only [sizeE] at hs
                    omega
                  obtain ⟨AI, ⟨tl1, AV⟩, AC, AT, AK, AId⟩ :=
                    ihT t1 hsz1 1 ⟨0, [], acc.out, acc.st⟩ r0 hinv heq
                  obtain ⟨EI, ⟨tl2, EV⟩, EC, ET, ETs, ECV⟩ :=
                    extract_sound eval r0.ts r0.st coeffs st1 AI heqX
                  obtain ⟨v1, hv1, hsumA⟩ := AId ETs
                  have hsum : tsVal eval r0.ts + r0.c = v1 := by
                    rw [hsumA]
                    show 0 + 0 + 1 * v1 = v1
                    ring
                  have hk2 : evalQ eval t2 = some k :=
                    evalQ_extended eval hhom (sizeE t2) t2 k (le_refl _) heq2
                  have hmodv : evalQ eval (.idivE t1 t2) = some (qdiv v1 k) :=
                    hhom.hidiv t1 t2 v1 k hv1 hk2
                  have hvm : qdiv (coeffsVal st1.mbo coeffs + r0.c) k
                      = qdiv v1 k := by
                    rw [ECV, hsum]
                  refine ⟨?_, ?_, ?_, ?_, ?_, ?_⟩
                  · intro p hp
                    rcases mem_aupd hp with rfl | hp2
                    · refine ⟨?_, ?_⟩
                      · show id < mbo1.values.length
                        rw [hval, hid]
                        simp
                      · show evalQ eval (.idivE t1 t2)
                          = some (mboVal mbo1 id)
                        unfold mboVal
                        rw [hval, hid]
                        rw [List.getD_append_right st1.mbo.values _ 0
                          st1.mbo.values.length (le_refl _)]
                        simp only [Nat.sub_self, List.getD]
                        rw [hmodv, hvm]
                        rfl
                    · obtain ⟨hlt, hev⟩ := EI p hp2
                      refine ⟨?_, ?_⟩
                      · show p.2 < mbo1.values.length
                        rw [hval]
                        simp only [List.length_append, List.length_cons]
                        omega
                      · rw [hev]
                        show some (mboVal st1.mbo p.2)
                          = some (mboVal mbo1 p.2)
                        unfold mboVal
                        rw [hval, List.getD_append _ _ _ _ hlt]
                  · refine ⟨tl1 ++ (tl2 ++
                      [qdiv (coeffsVal st1.mbo coeffs + r0.c) k]), ?_⟩
                    show mbo1.values = _
                    rw [hval, EV]
                    show (r0.st.mbo.values ++ tl2) ++ [_] = _
                    rw [AV]
                    show ((acc.st.mbo.values ++ tl1) ++ tl2) ++ [_] = _
                    rw [List.append_assoc, List.append_assoc]
                  · show mbo1.cons = acc.st.mbo.cons
                    rw [hcons]
                    exact EC.trans AC
                  · intro x id0 hx
                    show alook (aupd st1.tids (Expr.idivE t1 t2) _) x
                      = some id0
                    rw [alook_aupd]
                    split
                    · rename_i he
                      rw [← he] at hx
                      rw [hx] at htid
                      simp at htid
                    · exact ET x id0 (AT x id0 hx)
                  · intro y hy
                    exact alook_insert_mul_mono acc.ts (.idivE t1 t2) mul y hy
                  · intro hts
                    refine ⟨qdiv v1 k, hmodv, ?_⟩
                    show tsVal eval (insert_mul (Expr.idivE t1 t2) mul acc.ts)
                      + acc.c = tsVal eval acc.ts + acc.c + mul * qdiv v1 k
                    rw [tsVal_insert_mul, hmodv]
                    show tsVal eval acc.ts + mul * qdiv v1 k + acc.c = _
                    ring
            · have hh := Except.ok.inj h
              subst hh
              exact LinConc_self eval _ mul acc hinv
          · have hh := Except.ok.inj h
            subst hh
            exact LinConc_self eval _ mul acc hinv
        · -- default arm
          have hh := Except.ok.inj h
          subst hh
          exact LinConc_self eval t mul acc hinv
    refine ⟨hterm, ?_⟩
    intro l hs mul acc res hinv h
    cases l with
    | nil =>
      have hh := Except.ok.inj h
      subst hh
      exact LinConcL_nil eval mul acc hinv
    | cons e es =>
      replace h : (match linearize_term eval mul e acc with
        | Except.error err => Except.error err
        | Except.ok acc1 => linearize_term_list eval mul es acc1)
          = Except.ok res := h
      split at h
      · rename_i err heq
        cases h
      · rename_i acc1 heq
        have hszE : sizeE e ≤ m + 1 := by
          have := one_le_sizeE e
          simp only [sizeL] at hs
          omega
        have hszL : sizeL es ≤ m := by
          have := one_le_sizeE e
          simp only [sizeL] at hs
          omega
        obtain ⟨AI, ⟨tl1, AV⟩, AC, AT, AK, AId⟩ :=
          hterm e hszE mul acc acc1 hinv heq
        obtain ⟨BI, ⟨tl2, BV⟩, BC, BT, BK, BId⟩ :=
          ihL es hszL mul acc1 res AI h
        refine ⟨BI, ⟨tl1 ++ tl2, by rw [BV, AV, List.append_assoc]⟩,
          BC.trans AC, fun x id hx => BT x id (AT x id hx),
          fun y hy => BK y (AK y hy), ?_⟩
        intro hts
        have htsA : TsOK eval acc1.ts := TsOK_of_keys eval _ _ BK hts
        obtain ⟨v1, hv1, idA⟩ := AId htsA
        obtain ⟨vs, hvs, idB⟩ := BId hts
        refine ⟨v1 :: vs, ?_, ?_⟩
        · simp only [evalsQL, hv1, hvs]
        · rw [idB, idA, List.sum_cons]
          ring

/-- Helper: soundness of the shared comparison tail `lin_cmp`: a successful
run returns true and appends exactly one constraint of the requested kind
whose value under the MBO variable values is `mul` times the difference of
the model values of the two sides. -/
theorem lin_cmp_sound (eval : Expr → Expr) (hhom : EvalHom eval)
    (mul : ℚ) (e1 e2 : Expr) (ty : IneqType) (st : LinState)
    (b : Bool) (out : List Expr) (st' : LinState)
    (hinv : INVtids eval st)
    (h : lin_cmp eval mul e1 e2 ty st = .ok (b, out, st')) :
    b = true ∧ ∃ (con : Con) (v1 v2 : ℚ),
      evalQ eval e1 = some v1 ∧ evalQ eval e2 = some v2 ∧
      st'.mbo.cons = st.mbo.cons ++ [con] ∧ con.ty = ty ∧ con.modM = 0 ∧
      conVal st'.mbo con = mul * v1 - mul * v2 := by
  unfold lin_cmp at h
  split at h
  · cases h
  · rename_i r1 heq1
    split at h
    · cases h
    · rename_i r2 heq2
      split at h
      · cases h
      · rename_i coeffs st1 heqX
        have hh := Except.ok.inj h
        rw [Prod.mk.injEq, Prod.mk.injEq] at hh
        obtain ⟨hb, hout, hst⟩ := hh
        subst hst
        obtain ⟨hTerm, -⟩ := lin_term_sound eval hhom (sizeE e1 + sizeE e2)
        obtain ⟨AI, ⟨tl1, AV⟩, AC, AT, AK, AId⟩ :=
          hTerm e1 (by omega) mul ⟨0, [], [], st⟩ r1 hinv heq1
        obtain ⟨BI, ⟨tl2, BV⟩, BC, BT, BK, BId⟩ :=
          hTerm e2 (by omega) (-mul) r1 r2 AI heq2
        obtain ⟨EI, ⟨tl3, EV⟩, EC, ET, ETs, ECV⟩ :=
          extract_sound eval r2.ts r2.st coeffs st1 BI heqX
        have htsA : TsOK eval r1.ts := TsOK_of_keys eval _ _ BK ETs
        obtain ⟨v1, hv1, idA⟩ := AId htsA
        obtain ⟨v2, hv2, idB⟩ := BId ETs
        have hA : tsVal eval r1.ts + r1.c = mul * v1 := by
          rw [idA]
          show 0 + 0 + mul * v1 = mul * v1
          ring
        refine ⟨hb.symm, ⟨coeffs, r2.c, ty, 0⟩, v1, v2, hv1, hv2, ?_,
          rfl, rfl, ?_⟩
        · show st1.mbo.cons ++ [(⟨coeffs, r2.c, ty, 0⟩ : Con)]
            = st.mbo.cons ++ [(⟨coeffs, r2.c, ty, 0⟩ : Con)]
          rw [EC, BC, AC]
        · show coeffsVal st1.mbo coeffs + r2.c = mul * v1 - mul * v2
          rw [ECV]
          linarith [idB, hA]

/-- Helper: the always-numeral evaluator maps every expression to the
numeral of its reference value. -/
theorem evalQ_evalNum (σ : Nat → ℚ) (β : Nat → Bool) (e : Expr) :
    evalQ (evalNum σ β) e = some (evalRefQ σ β e) := rfl

/-- Helper: argument-list evaluation under the always-numeral evaluator. -/
theorem evalsQL_evalNum (σ : Nat → ℚ) (β : Nat → Bool) :
    ∀ l : ExprList, evalsQL (evalNum σ β) l = some (evalRefVals σ β l)
  | .nil => rfl
  | .cons e es => by
    simp only [evalsQL, evalQ_evalNum, evalsQL_evalNum σ β es, evalRefVals]

/-- Helper: the reference values of an argument list sum to its reference
sum. -/
theorem evalRefVals_sum (σ : Nat → ℚ) (β : Nat → Bool) :
    ∀ l : ExprList, (evalRefVals σ β l).sum = evalRefQL σ β l
  | .nil => rfl
  | .cons e es => by
    simp only [evalRefVals, evalRefQL, List.sum_cons, evalRefVals_sum σ β es]

/-- Helper: the always-numeral evaluator satisfies the evaluator coherence
contract. -/
theorem evalNum_hom (σ : Nat → ℚ) (β : Nat → Bool) :
    EvalHom (evalNum σ β) := by
  refine ⟨?_, ?_, ?_, ?_, ?_, ?_, ?_, ?_, ?_⟩
  · intro q b
    rfl
  · intro l vs h
    rw [evalsQL_evalNum] at h
    have hh := Option.some.inj h
    subst hh
    show some (evalRefQ σ β (.addE l)) = some ((evalRefVals σ β l).sum)
    rw [evalRefVals_sum]
    rfl
  · intro a b x y hx hy
    have hx2 : evalRefQ σ β a = x := Option.some.inj hx
    have hy2 : evalRefQ σ β b = y := Option.some.inj hy
    show some (evalRefQ σ β a - evalRefQ σ β b) = some (x - y)
    rw [hx2, hy2]
  · intro a x hx
    have hx2 : evalRefQ σ β a = x := Option.some.inj hx
    show some (-evalRefQ σ β a) = some (-x)
    rw [hx2]
  · intro a b x y hx hy
    have hx2 : evalRefQ σ β a = x := Option.some.inj hx
    have hy2 : evalRefQ σ β b = y := Option.some.inj hy
    show some (evalRefQ σ β a * evalRefQ σ β b) = some (x * y)
    rw [hx2, hy2]
  · intro g a b hg
    exact Expr.noConfusion hg
  · intro g a b hg
    exact Expr.noConfusion hg
  · intro a k x m hx hk
    have hx2 : evalRefQ σ β a = x := Option.some.inj hx
    have hk2 : evalRefQ σ β k = m := Option.some.inj hk
    show some (qmod (evalRefQ σ β a) (evalRefQ σ β k)) = some (qmod x m)
    rw [hx2, hk2]
  · intro a k x m hx hk
    have hx2 : evalRefQ σ β a = x := Option.some.inj hx
    have hk2 : evalRefQ σ β k = m := Option.some.inj hk
    show some (qdiv (evalRefQ σ β a) (evalRefQ σ β k)) = some (qdiv x m)
    rw [hx2, hk2]

/-- C2: for a negated arithmetic equality whose two sides evaluate under
the model to distinct numerals, the literal linearizer succeeds and submits
exactly one strict constraint whose value under the initial MBO variable
values is the smaller model value minus the larger one; in particular the
constraint is negative, hence satisfied by the guiding model. -/
theorem linearize_neq (eval : Expr → Expr) (hhom : EvalHom eval)
    (e1 e2 : Expr) (r1 r2 : ℚ) (st : LinState) (b : Bool)
    (out : List Expr) (st' : LinState)
    (hinv : INVtids eval st) (harith : is_arith e1 = true)
    (h1 : evalNumQ (eval e1) = some r1) (h2 : evalNumQ (eval e2) = some r2)
    (hne : r1 ≠ r2)
    (hok : linearize eval (.notE (.eqE e1 e2)) st = .ok (b, out, st')) :
    b = true ∧ ∃ con : Con, st'.mbo.cons = st.mbo.cons ++ [con] ∧
      con.ty = .t_lt ∧ conVal st'.mbo con = min r1 r2 - max r1 r2 ∧
      conVal st'.mbo con < 0 := by
  replace hok : (if is_arith e1 then
      (match evalNumQ (eval e1), evalNumQ (eval e2) with
        | some a1, some a2 =>
          lin_cmp eval (-1) (if a1 < a2 then (e2, e1) else (e1, e2)).1
            (if a1 < a2 then (e2, e1) else (e1, e2)).2 IneqType.t_lt st
        | some a1, none => Except.ok (false, [], st)
        | none, o2 => Except.ok (false, [], st))
    else Except.ok (false, [], st)) = Except.ok (b, out, st') := hok
  rw [if_pos harith, h1, h2] at hok
  replace hok : lin_cmp eval (-1)
      (if r1 < r2 then (e2, e1) else (e1, e2)).1
      (if r1 < r2 then (e2, e1) else (e1, e2)).2 IneqType.t_lt st
      = Except.ok (b, out, st') := hok
  rcases lt_trichotomy r1 r2 with hlt | heq0 | hgt
  · rw [if_pos hlt] at hok
    obtain ⟨hb, con, v1, v2, hv1, hv2, hcons, hty, hmodM, hcv⟩ :=
      lin_cmp_sound eval hhom (-1) e2 e1 .t_lt st b out st' hinv hok
    have hv1r : v1 = r2 := Option.some.inj (hv1.symm.trans h2)
    have hv2r : v2 = r1 := Option.some.inj (hv2.symm.trans h1)
    have hval : conVal st'.mbo con = r1 - r2 := by
      rw [hcv, hv1r, hv2r]
      ring
    refine ⟨hb, con, hcons, hty, ?_, ?_⟩
    · rw [hval, min_eq_left (le_of_lt hlt), max_eq_right (le_of_lt hlt)]
    · rw [hval]
      linarith
  · exact absurd heq0 hne
  · rw [if_neg (not_lt.mpr (le_of_lt hgt))] at hok
    obtain ⟨hb, con, v1, v2, hv1, hv2, hcons, hty, hmodM, hcv⟩ :=
      lin_cmp_sound eval hhom (-1) e1 e2 .t_lt st b out st' hinv hok
    have hv1r : v1 = r1 := Option.some.inj (hv1.symm.trans h1)
    have hv2r : v2 = r2 := Option.some.inj (hv2.symm.trans h2)
    have hval : conVal st'.mbo con = r2 - r1 := by
      rw [hcv, hv1r, hv2r]
      ring
    refine ⟨hb, con, hcons, hty, ?_, ?_⟩
    · rw [hval, min_eq_right (le_of_lt hgt), max_eq_left (le_of_lt hgt)]
    · rw [hval]
      linarith

/-- C2 witness: the concrete run `not (x0 = x1)` under the evaluator
priming x0 with 1 and x1 with 2 succeeds, swaps the sides and submits the
strict constraint `-x0 + x1 < 0`, whose value 1 - 2 = -1 is negative. -/
theorem linearize_neq_witness :
    (1 : ℚ) ≠ 2 ∧
    (true = true ∧ ∃ con : Con, stNeqEx.mbo.cons = mbo0.cons ++ [con] ∧
      con.ty = .t_lt ∧
      conVal stNeqEx.mbo con = min (1 : ℚ) 2 - max (1 : ℚ) 2 ∧
      conVal stNeqEx.mbo con < 0) :=
  ⟨by decide,
   linearize_neq evalNeqEx (evalNum_hom sigEx betaEx) (.var 0 .int)
     (.var 1 .int) 1 2 ⟨mbo0, []⟩ true [] stNeqEx
     (fun p hp => absurd hp (List.not_mem_nil p))
     (by decide) (by decide) (by decide) (by decide) (by decide)⟩

end Mbp
